import Mathlib

/-!
Verification of the site crawler (`crawler.py`): the hierarchy accumulator
(`insert_path` / `hierarchy_to_d3`), the sitemap seeder (`fetch_sitemap_urls`),
and the main crawl loop (`crawl`), shallowly embedded in Lean.

Python strings are modelled as Lean `String`; the Python string methods used by
the source (`str.strip`, `str.startswith`, `str.endswith`, `str.replace`,
`str.split`) are given executable models over the underlying character list.
-/

/-- Model of Python `str.startswith`: list prefix test on the characters. -/
def strStarts (s pat : String) : Bool :=
  pat.data.isPrefixOf s.data

/-- Model of Python `str.endswith`: suffix test on the characters. -/
def strEnds (s pat : String) : Bool :=
  pat.data.reverse.isPrefixOf s.data.reverse

/-- Model of Python `str.strip` (no arguments): drop leading and trailing
whitespace characters. -/
def trimChars (l : List Char) : List Char :=
  ((l.dropWhile Char.isWhitespace).reverse.dropWhile Char.isWhitespace).reverse

/-- Model of Python `str.strip` on strings. -/
def strTrim (s : String) : String :=
  ⟨trimChars s.data⟩

/-- Model of Python `str.replace(old, new)` on character lists: replace every
(left-to-right, non-overlapping) occurrence of `old` by `new`. -/
def replaceChars (old new : List Char) : List Char → List Char
  | [] => []
  | c :: rest =>
    if old.isPrefixOf (c :: rest) ∧ old ≠ [] then
      new ++ replaceChars old new (rest.drop (old.length - 1))
    else
      c :: replaceChars old new rest
termination_by l => l.length
decreasing_by
· simp only [List.length_cons]
  have := List.length_drop (old.length - 1) rest
  omega
· simp

/-- Model of Python `str.replace(old, new)` on strings. -/
def strReplace (s old new : String) : String :=
  ⟨replaceChars old.data new.data s.data⟩

/-- Model of Python `str.split("/")` on character lists: split at every `'/'`;
consecutive separators yield empty pieces, and the empty input yields one
empty piece. -/
def splitSlash : List Char → List (List Char)
  | [] => [[]]
  | c :: rest =>
    if c = '/' then [] :: splitSlash rest
    else
      match splitSlash rest with
      | [] => [[c]]
      | h :: t => (c :: h) :: t

/-- Model of Python `url_path.split("/")` on strings. -/
def splitPath (s : String) : List String :=
  (splitSlash s.data).map (fun l => ⟨l⟩)

/-- Lexicographic (code-point) comparison of character lists, modelling how
Python compares strings with `<=` / `sorted`. -/
def lexLe : List Char → List Char → Bool
  | [], _ => true
  | _ :: _, [] => false
  | a :: as, b :: bs => if a = b then lexLe as bs else decide (a < b)

/-- Code-point order on strings, modelling Python string comparison. -/
def strLe (a b : String) : Prop := lexLe a.data b.data = true

instance : DecidableRel strLe := fun a b => by
  unfold strLe; infer_instance

instance : IsTotal String strLe where
  total := by
    suffices h : ∀ x y : List Char, lexLe x y = true ∨ lexLe y x = true by
      intro a b; exact h a.data b.data
    intro x
    induction x with
    | nil => intro y; left; rfl
    | cons a as ih =>
      intro y
      cases y with
      | nil => right; rfl
      | cons b bs =>
        by_cases hab : a = b
        · subst hab
          rcases ih bs with h | h
          · left; simp [lexLe, h]
          · right; simp [lexLe, h]
        · rcases lt_or_gt_of_ne hab with h | h
          · left; simp [lexLe, hab, h]
          · right; simp [lexLe, Ne.symm hab, h, not_lt_of_gt h]

instance : IsTrans String strLe where
  trans := by
    suffices h : ∀ x y z : List Char,
        lexLe x y = true → lexLe y z = true → lexLe x z = true by
      intro a b c hab hbc; exact h a.data b.data c.data hab hbc
    intro x
    induction x with
    | nil => intro y z _ _; rfl
    | cons a as ih =>
      intro y z hxy hyz
      cases y with
      | nil => simp [lexLe] at hxy
      | cons b bs =>
        cases z with
        | nil => simp [lexLe] at hyz
        | cons c cs =>
          by_cases hab : a = b <;> by_cases hbc : b = c
          · subst hab; subst hbc
            simp only [lexLe, if_pos rfl] at hxy hyz ⊢
            exact ih bs cs hxy hyz
          · subst hab
            simp only [lexLe, if_pos rfl] at hxy
            simpa [lexLe, hbc] using hyz
          · subst hbc
            simpa [lexLe, hab] using hxy
          · simp only [lexLe, if_neg hab] at hxy
            simp only [lexLe, if_neg hbc] at hyz
            have hac : a < c := lt_trans (of_decide_eq_true hxy) (of_decide_eq_true hyz)
            simp [lexLe, ne_of_lt hac, hac]

instance : IsAntisymm String strLe where
  antisymm := by
    suffices h : ∀ x y : List Char, lexLe x y = true → lexLe y x = true → x = y by
      intro a b hab hba
      cases a; cases b
      exact congrArg String.mk (h _ _ hab hba)
    intro x
    induction x with
    | nil =>
      intro y _ hy
      cases y with
      | nil => rfl
      | cons b bs => simp [lexLe] at hy
    | cons a as ih =>
      intro y hxy hyx
      cases y with
      | nil => simp [lexLe] at hxy
      | cons b bs =>
        by_cases hab : a = b
        · subst hab
          simp only [lexLe, if_pos rfl] at hxy hyx
          rw [ih bs hxy hyx]
        · simp only [lexLe, if_neg hab, if_neg (Ne.symm hab)] at hxy hyx
          exact absurd (of_decide_eq_true hyx)
            (not_lt_of_gt (of_decide_eq_true hxy))

/-! ## Hierarchy accumulator (crawler.py `insert_path` / `hierarchy_to_d3`)

The Python hierarchy is a nested dict `{"__count": n, "children": {...}}`;
`children` is a dict from path segment to child node, in insertion order.
We model a node as a count together with an association list preserving
insertion order, matching Python dict semantics. -/

inductive HNode where
  | mk : Nat → List (String × HNode) → HNode

def HNode.count : HNode → Nat
  | .mk c _ => c

def HNode.children : HNode → List (String × HNode)
  | .mk _ cs => cs

/-- Lookup in a children dict (first matching key). -/
def assocFind : List (String × HNode) → String → Option HNode
  | [], _ => none
  | (k, v) :: rest, s => if k = s then some v else assocFind rest s

/-- Update in a children dict: replace the value at an existing key in place,
or append a new key at the end (Python dict insertion-order semantics). -/
def assocSet : List (String × HNode) → String → HNode → List (String × HNode)
  | [], s, v => [(s, v)]
  | (k, w) :: rest, s, v =>
    if k = s then (k, v) :: rest else (k, w) :: assocSet rest s v

/-- Model of `insert_path(hroot, path_segments)`: walk the segments, skipping
empty ones; for each segment fetch or create the child node
(`children.setdefault(seg, dict with count zero)`) and increment that child's
count, then continue into it with the remaining segments. -/
def insert_path : HNode → List String → HNode
  | t, [] => t
  | t, seg :: rest =>
    if seg = "" then insert_path t rest
    else
      let child := (assocFind t.children seg).getD (HNode.mk 0 [])
      let child' := insert_path (HNode.mk (child.count + 1) child.children) rest
      HNode.mk t.count (assocSet t.children seg child')

/-- The D3 output tree of `hierarchy_to_d3`: an interior node carries a name
and a children list; a leaf carries a name and a value. -/
inductive D3 where
  | leaf : String → Nat → D3
  | node : String → List D3 → D3

/-- Children pairs ordered by key, in Python's string order. -/
def pairLe (a b : String × HNode) : Prop := strLe a.1 b.1

instance : DecidableRel pairLe := fun a b => by
  unfold pairLe; infer_instance

instance : IsTotal (String × HNode) pairLe where
  total a b := IsTotal.total (r := strLe) a.1 b.1

instance : IsTrans (String × HNode) pairLe where
  trans a b c hab hbc := IsTrans.trans (r := strLe) a.1 b.1 c.1 hab hbc

/-- Model of `sorted(children_map.keys())` together with the lookups it
drives: the children pairs sorted by key. -/
def sortPairs (cs : List (String × HNode)) : List (String × HNode) :=
  List.insertionSort pairLe cs

/-- Model of `hierarchy_to_d3(node, name)`: an interior node (non-empty
children dict) renders its children in sorted key order; a node with no
children renders as a leaf whose value is its own count. -/
def hierarchy_to_d3 (t : HNode) (name : String) : D3 :=
  match t with
  | .mk c cs =>
    if cs.isEmpty then D3.leaf name c
    else D3.node name ((sortPairs cs).attach.map
      (fun q => hierarchy_to_d3 q.1.2 q.1.1))
termination_by sizeOf t
decreasing_by
  rename_i cs _h
  have hmem : q.1 ∈ sortPairs cs := q.2
  have hmem' : q.1 ∈ cs := (List.perm_insertionSort pairLe cs).subset hmem
  have h1 : sizeOf q.1 < sizeOf cs := List.sizeOf_lt_of_mem hmem'
  have h2 : sizeOf q.1.2 < sizeOf q.1 := by
    cases _hq : q.1 with
    | mk k v => simp
  simp only [HNode.mk.sizeOf_spec]
  omega

/-- Sum of the `value` fields over all leaves of a rendered D3 tree. -/
def leafSumD3 (d : D3) : Nat :=
  match d with
  | .leaf _ v => v
  | .node _ cs => (cs.attach.map (fun c => leafSumD3 c.1)).sum
termination_by sizeOf d
decreasing_by
  have h1 : sizeOf c.1 < sizeOf cs := List.sizeOf_lt_of_mem c.2
  simp only [D3.node.sizeOf_spec]
  omega

/-- Sum of `leafSumH` over a node's children; the count of a node with no
children (its own leaf sum). -/
def leafSumH (t : HNode) : Nat :=
  match t with
  | .mk c cs =>
    if cs.isEmpty then c
    else (cs.attach.map (fun q => leafSumH q.1.2)).sum
termination_by sizeOf t
decreasing_by
  rename_i cs _h
  have h1 : sizeOf q.1 < sizeOf cs := List.sizeOf_lt_of_mem q.2
  have h2 : sizeOf q.1.2 < sizeOf q.1 := by
    cases _hq : q.1 with
    | mk k v => simp
  simp only [HNode.mk.sizeOf_spec]
  omega

/-- Boolean test that a list of strings is weakly increasing in Python's
string order. -/
def chainLeB : List String → Bool
  | [] => true
  | [_] => true
  | a :: b :: rest => (lexLe a.data b.data && chainLeB (b :: rest))

def D3.name : D3 → String
  | .leaf n _ => n
  | .node n _ => n

/-- Every interior node of the tree lists its children in weakly increasing
name order. -/
def d3SortedB (d : D3) : Bool :=
  match d with
  | .leaf _ _ => true
  | .node _ cs =>
    (chainLeB (cs.map D3.name) && cs.attach.all (fun c => d3SortedB c.1))
termination_by sizeOf d
decreasing_by
  have h1 : sizeOf c.1 < sizeOf cs := List.sizeOf_lt_of_mem c.2
  simp only [D3.node.sizeOf_spec]
  omega

/-- Non-empty segments of a path-segment list, as `insert_path` effectively
consumes them (it skips empty segments). -/
def nseg (l : List String) : List String := l.filter (fun s => s ≠ "")

/-- The hierarchy accumulator built by inserting each segment list in turn
into a fresh root (count zero, no children). -/
def buildL (L : List (List String)) : HNode :=
  L.foldl insert_path (HNode.mk 0 [])

/-- Number of elements of `S` whose head segment is `k`. -/
def headCount (S : List (List String)) (k : String) : Nat :=
  S.countP (fun l => l.head? = some k)

/-- The tails of the elements of `S` that start with segment `k`, in order. -/
def tailsOf (S : List (List String)) (k : String) : List (List String) :=
  S.filterMap (fun l =>
    match l with
    | [] => none
    | a :: r => if a = k then some r else none)

/-- Replace a node's count, keeping its children. -/
def setCount : HNode → Nat → HNode
  | .mk _ cs, n => .mk n cs

/-- Walk a segment path down the tree. -/
def findNode : HNode → List String → Option HNode
  | t, [] => some t
  | t, s :: rest =>
    match assocFind t.children s with
    | none => none
    | some c => findNode c rest

/-- The count stored at the node reached by a segment path, if the node
exists. -/
def countAt (t : HNode) (p : List String) : Option Nat :=
  (findNode t p).map HNode.count

/-- `l` (inserted as its non-empty segments) is maximal among the insertions
`S`: its segment sequence is non-empty and is not a proper prefix of any other
inserted sequence. -/
def maximalIn (S : List (List String)) (l : List String) : Prop :=
  nseg l ≠ [] ∧ ∀ l' ∈ S, nseg l <+: nseg l' → nseg l = nseg l'

instance (S : List (List String)) (l : List String) : Decidable (maximalIn S l) := by
  unfold maximalIn
  infer_instance

/-- Number of insertions in `L` that are maximal (their exact non-empty
segment sequence is not properly extended by any other insertion). -/
def maximalCount (L : List (List String)) : Nat :=
  L.countP (fun l => decide (maximalIn L l))

/-! ## Sitemap seeder (crawler.py `fetch_sitemap_urls`)

A sitemap fetch result is modelled as `none` for a raised request exception,
or `some (status_code, lines)` for a response with the given status code whose
body splits into the given lines; Python's `resp.text` truthiness test is the
test that the line list is non-empty. -/

/-- Model of the per-line extraction loop of `fetch_sitemap_urls`: strip the
line, keep it if it starts with the open tag and ends with the close tag,
remove both tags, strip, and keep the result if it starts with the base
prefix. -/
def extractLocs (basePfx : String) (lines : List String) : List String :=
  lines.filterMap (fun line0 =>
    let line := strTrim line0
    if strStarts line "<loc>" && strEnds line "</loc>" then
      let loc := strTrim (strReplace (strReplace line "<loc>" "") "</loc>" "")
      if strStarts loc basePfx then some loc else none
    else none)

/-- Model of `fetch_sitemap_urls(logger, base_origin, base_prefix)`: for each
sitemap source, on success (no exception, status 200, non-empty body) append
the extracted prefix-matching locations; finally deduplicate and sort
(Python `sorted(set(urls))`). -/
def fetch_sitemap_urls (basePfx : String)
    (resps : List (Option (Nat × List String))) : List String :=
  let urls := resps.foldl (fun acc o =>
    match o with
    | none => acc
    | some (code, lines) =>
      if code = 200 ∧ lines ≠ [] then acc ++ extractLocs basePfx lines else acc) []
  List.insertionSort strLe urls.dedup

/-! ## Main crawl loop (crawler.py `crawl`)

Network and URL-library effects are supplied by an environment: `fetch` gives
the outcome of `session.get` per URL, `originOf` gives the scheme-and-host
component of `urlparse`, `pathOf` gives its path component, and `normalize`
gives the outcome of `normalize_url` (urljoin plus fragment stripping), with
`none` for a raised exception. Configuration constants become environment
fields. -/

structure PageRecord where
  url : String
  status_code : Option Nat
  title : String
  meta_description : String
  canonical : Option String
  parent_url : Option String
  depth : Nat
deriving DecidableEq

structure EdgeRecord where
  source : String
  target : String
deriving DecidableEq

structure ErrorRecord where
  url : String
  error : String
deriving DecidableEq

/-- Outcome of reading the robots directives source: a raised exception
(connection-level failure of `rp.read()`), an HTTP error status, or a parsed
rule set (the per-URL decision of the directives for the configured agent). -/
inductive RobotsFetch where
  | exn : String → RobotsFetch
  | httpErr : Nat → RobotsFetch
  | ok : (String → Bool) → RobotsFetch

/-- State of the robots policy object, modelled from CPython
`urllib.robotparser.RobotFileParser` (the external facade the source uses):
`disallow_all` and `allow_all` are set by `read()` on 401/403 and other 4xx
statuses respectively, and `last_checked` records whether a robots file was
ever parsed. -/
structure RobotsState where
  disallow_all : Bool
  allow_all : Bool
  last_checked : Bool
  rules : String → Bool

/-- A freshly constructed robots policy object: nothing read yet. -/
def initRobots : RobotsState :=
  { disallow_all := false, allow_all := false, last_checked := false,
    rules := fun _ => true }

/-- Model of `RobotFileParser.read()` as used at crawl start: an HTTP 401/403
sets `disallow_all`, another 4xx sets `allow_all`, other HTTP errors leave the
state untouched, a successful response parses the rules (setting
`last_checked`), and a raised exception propagates to the caller, which
catches it and leaves the object in its initial state. -/
def robotsRead (f : RobotsFetch) : RobotsState :=
  match f with
  | .exn _ => initRobots
  | .httpErr code =>
    if code = 401 ∨ code = 403 then { initRobots with disallow_all := true }
    else if 400 ≤ code ∧ code < 500 then { initRobots with allow_all := true }
    else initRobots
  | .ok rules =>
    { disallow_all := false, allow_all := false, last_checked := true,
      rules := rules }

/-- Model of `RobotFileParser.can_fetch(useragent, url)` from CPython:
disallow-all and allow-all short-circuit; if the robots file was never
successfully read (`last_checked` still unset) every URL is answered `false`;
otherwise the parsed rules decide. -/
def can_fetch (rp : RobotsState) (url : String) : Bool :=
  if rp.disallow_all then false
  else if rp.allow_all then true
  else if !rp.last_checked then false
  else rp.rules url

/-- Outcome of `session.get(url, ...)`: a raised `requests.RequestException`
or a response. -/
structure RespModel where
  status : Nat
  is_html : Bool
  has_body : Bool
  final_url : String
  title : String
  meta_description : String
  canonical : Option String
  hrefs : List String
deriving DecidableEq

inductive FetchOutcome where
  | exn : String → FetchOutcome
  | resp : RespModel → FetchOutcome
deriving DecidableEq

structure Env where
  baseUrl : String
  maxPages : Option Nat
  maxDepth : Nat
  obeyRobots : Bool
  recordBlocked : Bool
  useSitemap : Bool
  sitemaps : List (Option (Nat × List String))
  robots : RobotsFetch
  fetch : String → FetchOutcome
  originOf : String → String
  pathOf : String → String
  normalize : String → String → Option String

/-- The robots policy object used by the whole crawl: constructed fresh, read
only when robots compliance is enabled. -/
def rpOf (env : Env) : RobotsState :=
  if env.obeyRobots then robotsRead env.robots else initRobots

structure CrawlState where
  q : List (String × Option String × Nat)
  visited : List String
  pages : List PageRecord
  edges : List EdgeRecord
  errors : List ErrorRecord
  pages_count : Nat
  hroot : HNode

/-- A dequeue rejection reason, mirroring the three skip branches of the
main loop (each logs a distinct diagnostic). -/
inductive Reason where
  | depth
  | origin
  | visited
deriving DecidableEq

/-- The scope filter at the top of the loop body, in source order: skip when
`depth > MAX_DEPTH`, else when the URL is not same-origin with the base URL,
else when the URL is already in the visited set. -/
def scope_check (env : Env) (visited : List String) (url : String)
    (depth : Nat) : Option Reason :=
  if depth > env.maxDepth then some .depth
  else if env.originOf env.baseUrl ≠ env.originOf url then some .origin
  else if url ∈ visited then some .visited
  else none

/-- The link-collection pass over a successfully fetched HTML page: normalize
each anchor href against the response's final URL, drop failures and falsy
results, and keep only candidates same-origin with the crawl origin. -/
def links_of (env : Env) (r : RespModel) : List String :=
  r.hrefs.filterMap (fun h =>
    match env.normalize r.final_url h with
    | none => none
    | some cand =>
      if cand = "" then none
      else if env.originOf (env.originOf env.baseUrl) ≠ env.originOf cand then none
      else some cand)

/-- The local variables of one fetch attempt: status code, title, meta
description, canonical (initialized to the sentinels), the collected links,
and the error records written; a `RequestException` writes one error record
and leaves the sentinels in place. -/
structure FetchEval where
  status_code : Option Nat
  title : String
  meta_description : String
  canonical : Option String
  links : List String
  errs : List ErrorRecord

def fetchEval (env : Env) (url : String) : FetchEval :=
  match env.fetch url with
  | .exn e =>
    { status_code := none, title := "SIN_TITULO",
      meta_description := "SIN_DESCRIPCION", canonical := none, links := [],
      errs := [⟨url, e⟩] }
  | .resp r =>
    if r.is_html && r.has_body then
      { status_code := some r.status, title := r.title,
        meta_description := r.meta_description, canonical := r.canonical,
        links := links_of env r, errs := [] }
    else
      { status_code := some r.status, title := "SIN_TITULO",
        meta_description := "SIN_DESCRIPCION", canonical := none, links := [],
        errs := [] }

/-- The child loop at the end of an iteration: each collected link not yet
visited is appended to the frontier and yields one edge record. The visited
set is not changed by this loop. -/
def enqueueChildren (url : String) (depth : Nat) (links : List String)
    (st : CrawlState) : CrawlState :=
  links.foldl (fun st child =>
    if child ∈ st.visited then st
    else
      { st with q := st.q ++ [(child, some url, depth + 1)],
                edges := st.edges ++ [⟨url, child⟩] }) st

/-- The path segments of a URL inserted into the hierarchy:
`urlparse(url).path.split("/")` with empty segments dropped. -/
def segsOf (env : Env) (url : String) : List String :=
  (splitPath (env.pathOf url)).filter (fun sg => sg ≠ "")

/-- One iteration of the fetch branch: attempt the fetch, then mark visited,
write the page record, bump the page counter, insert the path into the
hierarchy, and run the child loop. -/
def fetchStep (env : Env) (url : String) (parent : Option String)
    (depth : Nat) (s1 : CrawlState) : CrawlState :=
  let fe := fetchEval env url
  let s2 : CrawlState :=
    { s1 with
      visited := url :: s1.visited,
      errors := s1.errors ++ fe.errs,
      pages := s1.pages ++
        [⟨url, fe.status_code, fe.title, fe.meta_description, fe.canonical,
          parent, depth⟩],
      pages_count := s1.pages_count + 1,
      hroot := insert_path s1.hroot (segsOf env url) }
  enqueueChildren url depth fe.links s2

/-- One iteration of the main loop body on a non-empty frontier: pop the
first entry, run the scope filter, then the robots check (blocked URLs are
marked visited and, when configured, recorded as placeholder pages), and
otherwise the fetch branch. -/
def step (env : Env) (s : CrawlState) : CrawlState :=
  match s.q with
  | [] => s
  | (url, parent, depth) :: rest =>
    let s1 : CrawlState := { s with q := rest }
    match scope_check env s.visited url depth with
    | some _ => s1
    | none =>
      if env.obeyRobots && !(can_fetch (rpOf env) url) then
        let s2 : CrawlState := { s1 with visited := url :: s1.visited }
        if env.recordBlocked then
          { s2 with
            pages := s2.pages ++
              [⟨url, none, "BLOQUEADA_POR_ROBOTS", "BLOQUEADA_POR_ROBOTS",
                none, parent, depth⟩],
            pages_count := s2.pages_count + 1 }
        else s2
      else fetchStep env url parent depth s1

/-- The `while q and pages_count < MAX_PAGES` condition; `maxPages = none`
models the unbounded `float('inf')` setting. -/
def loopCond (env : Env) (s : CrawlState) : Bool :=
  (!s.q.isEmpty) &&
    (match env.maxPages with
     | none => true
     | some m => s.pages_count < m)

/-- Run up to `n` iterations of the main loop, stopping when the loop
condition fails. -/
def run (env : Env) (s : CrawlState) : Nat → CrawlState
  | 0 => s
  | n + 1 => if loopCond env s then run env (step env s) n else s

/-- The initial crawl state: frontier seeded with the base URL at depth 0 and
then, when sitemap use is enabled, with the sitemap URLs not already visited
(the visited set is still empty here) at depth 1 with the base URL as
parent. -/
def initState (env : Env) : CrawlState :=
  let origin := env.originOf env.baseUrl
  let visited0 : List String := []
  let q0 := [(env.baseUrl, (none : Option String), 0)]
  let q1 :=
    if env.useSitemap then
      q0 ++ ((fetch_sitemap_urls (origin ++ env.pathOf env.baseUrl)
          env.sitemaps).filter (fun u => u ∉ visited0)).map
        (fun u => (u, some env.baseUrl, 1))
    else q0
  { q := q1, visited := visited0, pages := [], edges := [], errors := [],
    pages_count := 0, hroot := HNode.mk 0 [] }

/-- The whole crawl, observed after at most `n` loop iterations. -/
def crawl (env : Env) (n : Nat) : CrawlState :=
  run env (initState env) n

/-- The scope filter in the order claimed by the specification (cross-origin
first, then depth, then visited), for comparison with `scope_check`. -/
def scope_check_spec (env : Env) (visited : List String) (url : String)
    (depth : Nat) : Option Reason :=
  if env.originOf env.baseUrl ≠ env.originOf url then some .origin
  else if depth > env.maxDepth then some .depth
  else if url ∈ visited then some .visited
  else none

/-! ## Concrete environments for evaluation -/

/-- A minimal response: a successful HTML page with one outbound link. -/
def respTo (u : String) (link : String) : RespModel :=
  { status := 200, is_html := true, has_body := true, final_url := u,
    title := "T", meta_description := "D", canonical := none,
    hrefs := [link] }

/-- Base environment: constant origin (everything same-origin), empty paths,
identity normalization, no robots compliance, no sitemap. -/
def envBase : Env :=
  { baseUrl := "a", maxPages := none, maxDepth := 8, obeyRobots := false,
    recordBlocked := true, useSitemap := false, sitemaps := [],
    robots := .ok (fun _ => true), fetch := fun _ => .exn "err",
    originOf := fun _ => "O", pathOf := fun _ => "",
    normalize := fun _ h => some h }

/-- Two pages `a` and `b` linking to each other. -/
def envA : Env :=
  { envBase with
    fetch := fun u =>
      if u = "a" then .resp (respTo "a" "b")
      else if u = "b" then .resp (respTo "b" "a")
      else .exn "x" }

/-- Page limit of one, otherwise like `envA`. -/
def envW : Env := { envA with maxPages := some 1 }

/-- Every fetch raises a transport error. -/
def envE : Env := { envBase with baseUrl := "u", fetch := fun _ => .exn "timeout" }

/-- Robots compliance enabled and the robots read raised an exception; any
actual fetch would be visible as an error record. -/
def envR : Env :=
  { envBase with
    baseUrl := "u"
    obeyRobots := true
    robots := .exn "connection refused"
    fetch := fun _ => .exn "network" }

/-- Origins are the URLs themselves, so distinct URLs are cross-origin; depth
limit three. -/
def envC9 : Env :=
  { envBase with baseUrl := "base", maxDepth := 3, originOf := fun u => u }

/-! ## Generic helper lemmas -/

theorem attachMap {α β : Type _} (l : List α) (f : α → β) :
    l.attach.map (fun x => f x.1) = l.map f :=
  List.attach_map_val l f

theorem attachAll {α : Type _} (l : List α) (f : α → Bool) :
    l.attach.all (fun x => f x.1) = l.all f := by
  apply Bool.coe_iff_coe.mp
  simp [List.all_eq_true]

/-! ## Unfolding lemmas for the rendered tree -/

theorem render_nil (c : Nat) (name : String) :
    hierarchy_to_d3 (HNode.mk c []) name = D3.leaf name c := by
  simp [hierarchy_to_d3]

theorem render_cons (c : Nat) (cs : List (String × HNode)) (name : String)
    (h : cs ≠ []) :
    hierarchy_to_d3 (HNode.mk c cs) name =
      D3.node name ((sortPairs cs).map (fun q => hierarchy_to_d3 q.2 q.1)) := by
  rw [hierarchy_to_d3]
  rw [if_neg (by simpa using h)]
  rw [attachMap (sortPairs cs) (fun q => hierarchy_to_d3 q.2 q.1)]

theorem leafSumD3_leaf (n : String) (v : Nat) : leafSumD3 (D3.leaf n v) = v := by
  simp [leafSumD3]

theorem leafSumD3_node (n : String) (cs : List D3) :
    leafSumD3 (D3.node n cs) = (cs.map leafSumD3).sum := by
  rw [leafSumD3]
  rw [attachMap cs leafSumD3]

theorem leafSumH_nil (c : Nat) : leafSumH (HNode.mk c []) = c := by
  simp [leafSumH]

theorem leafSumH_cons (c : Nat) (cs : List (String × HNode)) (h : cs ≠ []) :
    leafSumH (HNode.mk c cs) = (cs.map (fun q => leafSumH q.2)).sum := by
  rw [leafSumH]
  rw [if_neg (by simpa using h)]
  rw [attachMap cs (fun q => leafSumH q.2)]

theorem d3SortedB_leaf (n : String) (v : Nat) : d3SortedB (D3.leaf n v) = true := by
  simp [d3SortedB]

theorem d3SortedB_node (n : String) (cs : List D3) :
    d3SortedB (D3.node n cs) =
      (chainLeB (cs.map D3.name) && cs.all d3SortedB) := by
  rw [d3SortedB]
  rw [attachAll cs d3SortedB]

/-! ## Association-list lemmas -/

theorem assocFind_set_self (cs : List (String × HNode)) (k : String) (v : HNode) :
    assocFind (assocSet cs k v) k = some v := by
  induction cs with
  | nil => simp [assocSet, assocFind]
  | cons p rest ih =>
    obtain ⟨a, w⟩ := p
    by_cases h : a = k
    · subst h; simp [assocSet, assocFind]
    · simp [assocSet, assocFind, h, ih]

theorem assocFind_set_ne (cs : List (String × HNode)) (k k' : String) (v : HNode)
    (h : k' ≠ k) : assocFind (assocSet cs k v) k' = assocFind cs k' := by
  induction cs with
  | nil => simp [assocSet, assocFind, Ne.symm h]
  | cons p rest ih =>
    obtain ⟨a, w⟩ := p
    by_cases ha : a = k
    · subst ha
      simp [assocSet, assocFind, Ne.symm h]
    · simp [assocSet, assocFind, ha, ih]

theorem assocFind_eq_none (cs : List (String × HNode)) (k : String) :
    assocFind cs k = none ↔ k ∉ cs.map Prod.fst := by
  induction cs with
  | nil => simp [assocFind]
  | cons p rest ih =>
    obtain ⟨a, w⟩ := p
    by_cases h : a = k
    · subst h; simp [assocFind]
    · simp [assocFind, h, ih, Ne.symm h]

theorem assocSet_map_fst_mem (cs : List (String × HNode)) (k : String) (v : HNode)
    (h : k ∈ cs.map Prod.fst) :
    (assocSet cs k v).map Prod.fst = cs.map Prod.fst := by
  induction cs with
  | nil => simp at h
  | cons p rest ih =>
    obtain ⟨a, w⟩ := p
    by_cases ha : a = k
    · subst ha; simp [assocSet]
    · simp only [List.map_cons, List.mem_cons] at h
      rcases h with h | h
      · exact absurd h.symm ha
      · simp [assocSet, ha, ih h]

theorem assocSet_map_fst_notmem (cs : List (String × HNode)) (k : String) (v : HNode)
    (h : k ∉ cs.map Prod.fst) :
    (assocSet cs k v).map Prod.fst = cs.map Prod.fst ++ [k] := by
  induction cs with
  | nil => simp [assocSet]
  | cons p rest ih =>
    obtain ⟨a, w⟩ := p
    simp only [List.map_cons, List.mem_cons] at h
    push_neg at h
    simp [assocSet, Ne.symm h.1, ih h.2]

theorem assocSet_nodup (cs : List (String × HNode)) (k : String) (v : HNode)
    (h : (cs.map Prod.fst).Nodup) : ((assocSet cs k v).map Prod.fst).Nodup := by
  by_cases hm : k ∈ cs.map Prod.fst
  · rw [assocSet_map_fst_mem cs k v hm]; exact h
  · rw [assocSet_map_fst_notmem cs k v hm]
    simp [List.nodup_append, h, hm]

theorem assocFind_isSome (cs : List (String × HNode)) (k : String) :
    (assocFind cs k).isSome ↔ k ∈ cs.map Prod.fst := by
  rcases h : assocFind cs k with _ | v
  · simpa using (assocFind_eq_none cs k).mp h
  · simp only [Option.isSome_some, true_iff]
    by_contra hm
    rw [(assocFind_eq_none cs k).mpr hm] at h
    cases h

theorem assocFind_mem (cs : List (String × HNode)) (k : String) (v : HNode)
    (h : assocFind cs k = some v) : (k, v) ∈ cs := by
  induction cs with
  | nil => simp [assocFind] at h
  | cons p rest ih =>
    obtain ⟨a, w⟩ := p
    by_cases ha : a = k
    · subst ha
      simp only [assocFind, if_true, eq_self_iff_true, Option.some.injEq] at h
      subst h
      exact List.mem_cons_self _ _
    · simp only [assocFind, if_neg ha] at h
      exact List.mem_cons_of_mem _ (ih h)

theorem assocFind_of_mem_nodup (cs : List (String × HNode)) (k : String) (v : HNode)
    (hnd : (cs.map Prod.fst).Nodup) (h : (k, v) ∈ cs) : assocFind cs k = some v := by
  induction cs with
  | nil => simp at h
  | cons p rest ih =>
    obtain ⟨a, w⟩ := p
    simp only [List.map_cons, List.nodup_cons] at hnd
    rcases List.mem_cons.mp h with h | h
    · have h1 : k = a := congrArg Prod.fst h
      have h2 : v = w := congrArg Prod.snd h
      subst h1; subst h2
      simp [assocFind]
    · have hak : a ≠ k := by
        intro hh
        subst hh
        exact hnd.1 (List.mem_map_of_mem Prod.fst h)
      simp only [assocFind, if_neg hak]
      exact ih hnd.2 h

/-! ## Structural lemmas about `insert_path` and `buildL` -/

theorem setCount_count (t : HNode) (n : Nat) : (setCount t n).count = n := by
  cases t; rfl

theorem setCount_children (t : HNode) (n : Nat) :
    (setCount t n).children = t.children := by
  cases t; rfl

theorem HNode.eta (t : HNode) : t = HNode.mk t.count t.children := by
  cases t; rfl

theorem insert_path_count (t : HNode) (l : List String) :
    (insert_path t l).count = t.count := by
  induction l generalizing t with
  | nil => rfl
  | cons s rest ih =>
    by_cases h : s = ""
    · subst h; simp only [insert_path, if_pos rfl]; exact ih t
    · simp only [insert_path, if_neg h]; rfl

theorem insert_path_setCount (n m : Nat) (cs : List (String × HNode))
    (l : List String) :
    insert_path (HNode.mk n cs) l = setCount (insert_path (HNode.mk m cs) l) n := by
  induction l with
  | nil => rfl
  | cons s rest ih =>
    by_cases h : s = ""
    · subst h; simp only [insert_path, if_pos rfl]; exact ih
    · simp only [insert_path, if_neg h, HNode.children, HNode.count, setCount]

theorem insert_path_nseg (t : HNode) (l : List String) :
    insert_path t l = insert_path t (nseg l) := by
  induction l generalizing t with
  | nil => rfl
  | cons s rest ih =>
    by_cases h : s = ""
    · subst h
      simp only [insert_path, if_pos rfl, nseg, List.filter_cons]
      simpa [nseg] using ih t
    · simp only [nseg, List.filter_cons, decide_eq_true_eq, h, if_true,
        decide_not]
      simp only [insert_path, if_neg h]
      congr 1
      have := ih (HNode.mk (((assocFind t.children s).getD (HNode.mk 0 [])).count + 1)
        ((assocFind t.children s).getD (HNode.mk 0 [])).children)
      simpa [nseg] using congrArg (fun u => assocSet t.children s u) this

theorem buildL_append (S : List (List String)) (l : List String) :
    buildL (S ++ [l]) = insert_path (buildL S) l := by
  simp [buildL, List.foldl_append]

theorem foldl_insert_count (S : List (List String)) (t : HNode) :
    (S.foldl insert_path t).count = t.count := by
  induction S generalizing t with
  | nil => rfl
  | cons l S ih =>
    simp only [List.foldl_cons]
    rw [ih, insert_path_count]

theorem buildL_count (S : List (List String)) : (buildL S).count = 0 :=
  foldl_insert_count S (HNode.mk 0 [])

theorem insert_keys_nodup (t : HNode) (l : List String)
    (h : (t.children.map Prod.fst).Nodup) :
    ((insert_path t l).children.map Prod.fst).Nodup := by
  cases l with
  | nil => exact h
  | cons s rest =>
    by_cases hs : s = ""
    · subst hs
      simp only [insert_path, if_pos rfl]
      cases rest with
      | nil => exact h
      | cons a r =>
        by_cases ha : a = ""
        · subst ha
          exact insert_keys_nodup t (("" : String) :: r) h
        · simp only [insert_path, if_neg ha, HNode.children]
          exact assocSet_nodup _ _ _ h
    · simp only [insert_path, if_neg hs, HNode.children]
      exact assocSet_nodup _ _ _ h

/-! ## Head/tail decomposition of the insertion multiset -/

theorem tailsOf_nil (k : String) : tailsOf [] k = [] := rfl

theorem tailsOf_append (S T : List (List String)) (k : String) :
    tailsOf (S ++ T) k = tailsOf S k ++ tailsOf T k := by
  simp [tailsOf, List.filterMap_append]

theorem tailsOf_singleton_nilcase (k : String) : tailsOf [[]] k = [] := rfl

theorem tailsOf_singleton_eq (k : String) (r : List String) :
    tailsOf [k :: r] k = [r] := by
  simp [tailsOf, List.filterMap]

theorem tailsOf_singleton_ne (a k : String) (r : List String) (h : a ≠ k) :
    tailsOf [a :: r] k = [] := by
  simp [tailsOf, List.filterMap, h]

theorem headCount_nil (k : String) : headCount [] k = 0 := rfl

theorem headCount_append (S T : List (List String)) (k : String) :
    headCount (S ++ T) k = headCount S k + headCount T k := by
  simp [headCount]

theorem headCount_singleton_nilcase (k : String) : headCount [[]] k = 0 := by
  simp [headCount]

theorem headCount_singleton_eq (k : String) (r : List String) :
    headCount [k :: r] k = 1 := by
  simp [headCount]

theorem headCount_singleton_ne (a k : String) (r : List String) (h : a ≠ k) :
    headCount [a :: r] k = 0 := by
  simp [headCount, h]

theorem length_tailsOf (S : List (List String)) (k : String) :
    (tailsOf S k).length = headCount S k := by
  induction S with
  | nil => rfl
  | cons l S ih =>
    cases l with
    | nil =>
      show (tailsOf ([[]] ++ S) k).length = headCount ([[]] ++ S) k
      rw [tailsOf_append, headCount_append, tailsOf_singleton_nilcase,
        headCount_singleton_nilcase]
      simpa using ih
    | cons a r =>
      show (tailsOf ([a :: r] ++ S) k).length = headCount ([a :: r] ++ S) k
      rw [tailsOf_append, headCount_append]
      by_cases h : a = k
      · subst h
        rw [tailsOf_singleton_eq, headCount_singleton_eq]
        simpa [Nat.add_comm] using ih
      · rw [tailsOf_singleton_ne a k r h, headCount_singleton_ne a k r h]
        simpa using ih

theorem tailsOf_eq_nil_of_headCount (S : List (List String)) (k : String)
    (h : headCount S k = 0) : tailsOf S k = [] := by
  have := length_tailsOf S k
  rw [h] at this
  exact List.length_eq_zero.mp this

theorem mem_tailsOf (S : List (List String)) (k : String) (r : List String) :
    r ∈ tailsOf S k ↔ (k :: r) ∈ S := by
  constructor
  · intro h
    obtain ⟨l, hl, hf⟩ := List.mem_filterMap.mp h
    cases l with
    | nil => simp at hf
    | cons a r' =>
      by_cases ha : a = k
      · subst ha
        simp only [if_true, eq_self_iff_true, Option.some.injEq] at hf
        rw [hf] at hl
        exact hl
      · simp [ha] at hf
  · intro h
    exact List.mem_filterMap.mpr ⟨k :: r, h, by simp⟩

theorem countP_tailsOf (S : List (List String)) (k : String)
    (Q : List String → Bool) :
    (tailsOf S k).countP Q =
      S.countP (fun l =>
        match l with
        | [] => false
        | a :: r => a = k && Q r) := by
  induction S with
  | nil => rfl
  | cons l S ih =>
    cases l with
    | nil =>
      show (tailsOf ([[]] ++ S) k).countP Q = _
      rw [tailsOf_append, tailsOf_singleton_nilcase]
      simp only [List.nil_append, List.countP_cons]
      simpa using ih
    | cons a r =>
      show (tailsOf ([a :: r] ++ S) k).countP Q = _
      rw [tailsOf_append]
      by_cases h : a = k
      · subst h
        rw [tailsOf_singleton_eq]
        simp only [List.singleton_append, List.countP_cons]
        simp [ih, Nat.add_comm]
      · rw [tailsOf_singleton_ne a k r h]
        simp [List.countP_cons, ih, h]

theorem tails_measure_le (S : List (List String)) (k : String) :
    ((tailsOf S k).map (fun l => l.length + 1)).sum + headCount S k ≤
      (S.map (fun l => l.length + 1)).sum := by
  induction S with
  | nil => simp [tailsOf_nil, headCount_nil]
  | cons l S ih =>
    cases l with
    | nil =>
      show ((tailsOf ([[]] ++ S) k).map _).sum + headCount ([[]] ++ S) k ≤ _
      rw [tailsOf_append, headCount_append, tailsOf_singleton_nilcase,
        headCount_singleton_nilcase]
      simp only [List.nil_append, List.map_cons, List.sum_cons]
      omega
    | cons a r =>
      show ((tailsOf ([a :: r] ++ S) k).map _).sum + headCount ([a :: r] ++ S) k ≤ _
      rw [tailsOf_append, headCount_append]
      by_cases h : a = k
      · subst h
        rw [tailsOf_singleton_eq, headCount_singleton_eq]
        simp only [List.singleton_append, List.map_cons, List.sum_cons,
          List.length_cons]
        omega
      · rw [tailsOf_singleton_ne a k r h, headCount_singleton_ne a k r h]
        simp only [List.nil_append, List.map_cons, List.sum_cons]
        omega

theorem norm_tailsOf (S : List (List String)) (k : String)
    (hS : ∀ l ∈ S, "" ∉ l) : ∀ r ∈ tailsOf S k, "" ∉ r := by
  intro r hr
  have := hS (k :: r) ((mem_tailsOf S k r).mp hr)
  intro hmem
  exact this (List.mem_cons_of_mem _ hmem)

/-! ## Children of a built hierarchy, by head segment -/

theorem buildL_singleton (l : List String) :
    buildL [l] = insert_path (HNode.mk 0 []) l := rfl

theorem children_mk (c : Nat) (cs : List (String × HNode)) :
    (HNode.mk c cs).children = cs := rfl

theorem count_mk (c : Nat) (cs : List (String × HNode)) :
    (HNode.mk c cs).count = c := rfl

theorem buildL_find (S : List (List String)) (hS : ∀ l ∈ S, "" ∉ l) (k : String) :
    assocFind (buildL S).children k =
      if headCount S k = 0 then none
      else some (setCount (buildL (tailsOf S k)) (headCount S k)) := by
  induction S using List.reverseRecOn with
  | nil =>
    simp [buildL, HNode.children, assocFind, headCount_nil, tailsOf_nil]
  | append_singleton S l ih =>
    have hS' : ∀ l' ∈ S, "" ∉ l' := fun l' h => hS l' (List.mem_append_left _ h)
    have hl : "" ∉ l := hS l (List.mem_append_right _ (by simp))
    rw [buildL_append, headCount_append, tailsOf_append]
    cases l with
    | nil =>
      rw [show insert_path (buildL S) [] = buildL S from rfl,
        headCount_singleton_nilcase, tailsOf_singleton_nilcase]
      simpa using ih hS'
    | cons a r =>
      have ha : a ≠ "" := fun h => hl (h ▸ List.mem_cons_self a r)
      simp only [insert_path, if_neg ha, children_mk]
      by_cases hk : k = a
      · subst hk
        rw [assocFind_set_self, headCount_singleton_eq, tailsOf_singleton_eq]
        rw [ih hS']
        by_cases hm : headCount S k = 0
        · rw [if_pos hm, tailsOf_eq_nil_of_headCount S k hm]
          simp only [Option.getD_none, count_mk, children_mk, hm]
          rw [if_neg (by omega)]
          rw [buildL_append]
          rw [show buildL ([] : List (List String)) = HNode.mk 0 [] from rfl]
          simp only [Nat.zero_add]
          rw [insert_path_setCount 1 0]
        · rw [if_neg hm]
          simp only [Option.getD_some, setCount_count, setCount_children]
          rw [if_neg (by omega)]
          rw [buildL_append]
          have heta : buildL (tailsOf S k) =
              HNode.mk 0 (buildL (tailsOf S k)).children := by
            conv_lhs => rw [HNode.eta (buildL (tailsOf S k))]
            rw [buildL_count]
          rw [show insert_path (buildL (tailsOf S k)) r =
              insert_path (HNode.mk 0 (buildL (tailsOf S k)).children) r from by
            rw [← heta]]
          rw [insert_path_setCount (headCount S k + 1) 0]
      · rw [assocFind_set_ne _ a k _ hk,
          headCount_singleton_ne a k r (Ne.symm hk),
          tailsOf_singleton_ne a k r (Ne.symm hk)]
        simpa using ih hS'

theorem foldl_insert_keys_nodup (S : List (List String)) (t : HNode)
    (h : (t.children.map Prod.fst).Nodup) :
    ((S.foldl insert_path t).children.map Prod.fst).Nodup := by
  induction S generalizing t with
  | nil => exact h
  | cons l S ih =>
    simp only [List.foldl_cons]
    exact ih _ (insert_keys_nodup t l h)

theorem buildL_keys_nodup (S : List (List String)) :
    ((buildL S).children.map Prod.fst).Nodup :=
  foldl_insert_keys_nodup S (HNode.mk 0 []) (by simp [children_mk])

theorem buildL_keyMem (S : List (List String)) (hS : ∀ l ∈ S, "" ∉ l)
    (k : String) :
    k ∈ (buildL S).children.map Prod.fst ↔ headCount S k ≠ 0 := by
  rw [← assocFind_isSome]
  rw [buildL_find S hS k]
  by_cases h : headCount S k = 0 <;> simp [h]

theorem buildL_empty (S : List (List String)) (h : ∀ l ∈ S, l = []) :
    buildL S = HNode.mk 0 [] := by
  induction S with
  | nil => rfl
  | cons l S ih =>
    have hl : l = [] := h l (List.mem_cons_self _ _)
    subst hl
    show buildL S = HNode.mk 0 []
    exact ih (fun l' h' => h l' (List.mem_cons_of_mem _ h'))

theorem buildL_children_nil (S : List (List String)) (hS : ∀ l ∈ S, "" ∉ l) :
    (buildL S).children = [] ↔ ∀ l ∈ S, l = [] := by
  constructor
  · intro h l hl
    cases l with
    | nil => rfl
    | cons a r =>
      have hm : headCount S a ≠ 0 := by
        have : 0 < S.countP (fun l => l.head? = some a) :=
          List.countP_pos_iff.mpr ⟨a :: r, hl, by simp⟩
        unfold headCount
        omega
      have := (buildL_keyMem S hS a).mpr hm
      rw [h] at this
      simp at this
  · intro h
    rw [buildL_empty S h]
    rfl

/-! ## Counts stored in a built hierarchy -/

theorem countAt_self (t : HNode) : countAt t [] = some t.count := rfl

theorem countAt_cons_none (t : HNode) (k : String) (p : List String)
    (h : assocFind t.children k = none) : countAt t (k :: p) = none := by
  simp [countAt, findNode, h]

theorem countAt_cons_some (t c : HNode) (k : String) (p : List String)
    (h : assocFind t.children k = some c) : countAt t (k :: p) = countAt c p := by
  simp [countAt, findNode, h]

theorem countAt_setCount (t : HNode) (n : Nat) (p : List String) (h : p ≠ []) :
    countAt (setCount t n) p = countAt t p := by
  cases p with
  | nil => exact absurd rfl h
  | cons a r =>
    rcases hf : assocFind t.children a with _ | c
    · rw [countAt_cons_none _ _ _ (by rw [setCount_children]; exact hf),
        countAt_cons_none _ _ _ hf]
    · rw [countAt_cons_some _ c _ _ (by rw [setCount_children]; exact hf),
        countAt_cons_some _ c _ _ hf]

theorem countAt_buildL (p : List String) : ∀ (S : List (List String)),
    (∀ l ∈ S, "" ∉ l) → p ≠ [] →
    countAt (buildL S) p =
      (if S.countP (fun l => decide (p <+: l)) = 0 then none
       else some (S.countP (fun l => decide (p <+: l)))) := by
  induction p with
  | nil => intro S _ h; exact absurd rfl h
  | cons k p' ih =>
    intro S hS _
    rcases hm : headCount S k with _ | m
    · have hfind : assocFind (buildL S).children k = none := by
        rw [buildL_find S hS k, if_pos hm]
      rw [countAt_cons_none _ _ _ hfind]
      have hz : S.countP (fun l => decide ((k :: p') <+: l)) = 0 := by
        rw [List.countP_eq_zero]
        intro l hl hpre
        rw [decide_eq_true_eq] at hpre
        cases l with
        | nil => exact absurd hpre (by simp)
        | cons a r =>
          have hk : a = k := (List.cons_prefix_cons.mp hpre).1.symm
          subst hk
          have : 0 < headCount S a :=
            List.countP_pos_iff.mpr ⟨a :: r, hl, by simp⟩
          omega
      rw [hz]
      simp
    · have hmne : headCount S k ≠ 0 := by omega
      have hfind : assocFind (buildL S).children k =
          some (setCount (buildL (tailsOf S k)) (headCount S k)) := by
        rw [buildL_find S hS k, if_neg hmne]
      rw [countAt_cons_some _ _ _ _ hfind]
      cases p' with
      | nil =>
        rw [countAt_self, setCount_count]
        have hcnt : S.countP (fun l => decide ((k :: ([] : List String)) <+: l)) =
            headCount S k := by
          apply List.countP_congr
          intro l _
          cases l with
          | nil => simp
          | cons a r => simp [List.cons_prefix_cons, eq_comm]
        rw [hcnt, if_neg hmne]
      | cons b bs =>
        rw [countAt_setCount _ _ _ (by simp)]
        rw [ih (tailsOf S k) (norm_tailsOf S k hS) (by simp)]
        have hcnt : (tailsOf S k).countP (fun r => decide ((b :: bs) <+: r)) =
            S.countP (fun l => decide ((k :: b :: bs) <+: l)) := by
          rw [countP_tailsOf]
          apply List.countP_congr
          intro l _
          cases l with
          | nil => simp
          | cons a r =>
            by_cases hak : a = k
            · subst hak
              simp [List.cons_prefix_cons]
            · simp [List.cons_prefix_cons, hak, Ne.symm hak]
        rw [hcnt]

/-! ## Segment normalization -/

theorem nseg_no_empty (l : List String) : "" ∉ nseg l := by
  intro h
  have := List.of_mem_filter h
  simp at this

theorem nseg_eq_self (l : List String) (h : "" ∉ l) : nseg l = l := by
  rw [nseg, List.filter_eq_self]
  intro a ha
  simp only [ne_eq, decide_not, Bool.not_eq_eq_eq_not, Bool.not_true,
    decide_eq_false_iff_not]
  exact fun he => h (he ▸ ha)

theorem nseg_idem (l : List String) : nseg (nseg l) = nseg l :=
  nseg_eq_self (nseg l) (nseg_no_empty l)

theorem foldl_insert_nseg (L : List (List String)) (t : HNode) :
    L.foldl insert_path t = (L.map nseg).foldl insert_path t := by
  induction L generalizing t with
  | nil => rfl
  | cons l L ih =>
    simp only [List.map_cons, List.foldl_cons]
    rw [insert_path_nseg t l]
    exact ih _

theorem buildL_nseg (L : List (List String)) : buildL L = buildL (L.map nseg) :=
  foldl_insert_nseg L _

theorem norm_map_nseg (L : List (List String)) : ∀ l ∈ L.map nseg, "" ∉ l := by
  intro l hl
  obtain ⟨l', _, rfl⟩ := List.mem_map.mp hl
  exact nseg_no_empty l'

/-- Count of a node in the accumulator built from arbitrary insertions:
the number of insertions whose non-empty segment sequence extends the node's
path. -/
theorem countAt_buildL_nseg (L : List (List String)) (p : List String)
    (hp : p ≠ []) :
    countAt (buildL L) p =
      (if L.countP (fun l => decide (p <+: nseg l)) = 0 then none
       else some (L.countP (fun l => decide (p <+: nseg l)))) := by
  rw [buildL_nseg]
  rw [countAt_buildL p (L.map nseg) (norm_map_nseg L) hp]
  rw [List.countP_map]
  rfl

/-! ## Sorted children keys -/

theorem sortPairs_perm (cs : List (String × HNode)) :
    List.Perm (sortPairs cs) cs :=
  List.perm_insertionSort pairLe cs

theorem sortPairs_sorted (cs : List (String × HNode)) :
    List.Sorted pairLe (sortPairs cs) :=
  List.sorted_insertionSort pairLe cs

theorem sortPairs_keys_sorted (cs : List (String × HNode)) :
    List.Sorted strLe ((sortPairs cs).map Prod.fst) :=
  List.Pairwise.map Prod.fst (fun _ _ h => h) (sortPairs_sorted cs)

theorem sortPairs_map_key (cs : List (String × HNode))
    (hnd : (cs.map Prod.fst).Nodup) (F : HNode → String → D3) :
    (sortPairs cs).map (fun q => F q.2 q.1) =
      ((sortPairs cs).map Prod.fst).map
        (fun k => F ((assocFind cs k).getD (HNode.mk 0 [])) k) := by
  rw [List.map_map]
  apply List.map_congr_left
  intro q hq
  have hqcs : q ∈ cs := (sortPairs_perm cs).subset hq
  have hfind : assocFind cs q.1 = some q.2 :=
    assocFind_of_mem_nodup cs q.1 q.2 hnd (by simpa using hqcs)
  simp [Function.comp, hfind]

theorem sorted_keys_eq (cs cs' : List (String × HNode))
    (hnd : (cs.map Prod.fst).Nodup) (hnd' : (cs'.map Prod.fst).Nodup)
    (hmem : ∀ k, k ∈ cs.map Prod.fst ↔ k ∈ cs'.map Prod.fst) :
    (sortPairs cs).map Prod.fst = (sortPairs cs').map Prod.fst := by
  apply List.eq_of_perm_of_sorted (r := strLe)
  · exact ((sortPairs_perm cs).map _).trans
      (((List.perm_ext_iff_of_nodup hnd hnd').mpr hmem).trans
        (((sortPairs_perm cs').map _).symm))
  · exact sortPairs_keys_sorted cs
  · exact sortPairs_keys_sorted cs'

/-! ## Render is determined by the multiset of insertions -/

theorem setCount_eq (t : HNode) (n : Nat) : setCount t n = HNode.mk n t.children := by
  cases t; rfl

theorem render_count_irrel (m n : Nat) (cs : List (String × HNode)) (name : String)
    (h : cs ≠ []) :
    hierarchy_to_d3 (HNode.mk m cs) name = hierarchy_to_d3 (HNode.mk n cs) name := by
  rw [render_cons m cs name h, render_cons n cs name h]

theorem buildL_eta_zero (T : List (List String)) :
    HNode.mk 0 (buildL T).children = buildL T := by
  conv_rhs => rw [HNode.eta (buildL T)]
  rw [buildL_count]

theorem render_perm_aux (N : Nat) : ∀ (S S' : List (List String)),
    (S.map (fun l => l.length + 1)).sum ≤ N →
    (∀ l ∈ S, "" ∉ l) → (∀ l ∈ S', "" ∉ l) → List.Perm S S' →
    ∀ name, hierarchy_to_d3 (buildL S) name = hierarchy_to_d3 (buildL S') name := by
  induction N with
  | zero =>
    intro S S' hsz _ _ hperm name
    have hSnil : S = [] := by
      cases S with
      | nil => rfl
      | cons l S => simp at hsz
    subst hSnil
    have hS'nil : S' = [] := List.Perm.eq_nil hperm.symm
    subst hS'nil
    rfl
  | succ N ih =>
    intro S S' hsz hS hS' hperm name
    by_cases hnil : (buildL S).children = []
    · have hall : ∀ l ∈ S, l = [] := (buildL_children_nil S hS).mp hnil
      have hall' : ∀ l ∈ S', l = [] := fun l hl => hall l (hperm.mem_iff.mpr hl)
      rw [buildL_empty S hall, buildL_empty S' hall']
    · have hnil' : (buildL S').children ≠ [] := by
        intro h
        exact hnil ((buildL_children_nil S hS).mpr
          (fun l hl => (buildL_children_nil S' hS').mp h l (hperm.mem_iff.mp hl)))
      have hhc : ∀ k, headCount S k = headCount S' k := fun k =>
        List.Perm.countP_eq _ hperm
      have hmem : ∀ k, k ∈ (buildL S).children.map Prod.fst ↔
          k ∈ (buildL S').children.map Prod.fst := by
        intro k
        rw [buildL_keyMem S hS k, buildL_keyMem S' hS' k, hhc k]
      conv_lhs => rw [HNode.eta (buildL S)]
      conv_rhs => rw [HNode.eta (buildL S')]
      rw [render_cons _ _ _ hnil, render_cons _ _ _ hnil']
      congr 1
      rw [sortPairs_map_key _ (buildL_keys_nodup S) hierarchy_to_d3,
        sortPairs_map_key _ (buildL_keys_nodup S') hierarchy_to_d3]
      rw [sorted_keys_eq _ _ (buildL_keys_nodup S) (buildL_keys_nodup S') hmem]
      apply List.map_congr_left
      intro k hk
      have hkmem : k ∈ (buildL S').children.map Prod.fst :=
        ((sortPairs_perm (buildL S').children).map Prod.fst).subset hk
      have hm' : headCount S' k ≠ 0 := (buildL_keyMem S' hS' k).mp hkmem
      have hm : headCount S k ≠ 0 := by rw [hhc k]; exact hm'
      rw [buildL_find S hS k, if_neg hm, buildL_find S' hS' k, if_neg hm']
      simp only [Option.getD_some]
      rw [hhc k]
      have htperm : List.Perm (tailsOf S k) (tailsOf S' k) := hperm.filterMap _
      by_cases htc : (buildL (tailsOf S k)).children = []
      · have hall : ∀ r ∈ tailsOf S k, r = [] :=
          (buildL_children_nil _ (norm_tailsOf S k hS)).mp htc
        have hall' : ∀ r ∈ tailsOf S' k, r = [] := fun r hr =>
          hall r (htperm.mem_iff.mpr hr)
        rw [buildL_empty _ hall, buildL_empty _ hall']
      · have htc' : (buildL (tailsOf S' k)).children ≠ [] := by
          intro h
          apply htc
          exact (buildL_children_nil _ (norm_tailsOf S k hS)).mpr
            (fun r hr => (buildL_children_nil _ (norm_tailsOf S' k hS')).mp h r
              (htperm.mem_iff.mp hr))
        rw [setCount_eq, setCount_eq]
        rw [render_count_irrel (headCount S' k) 0 _ _ htc,
          render_count_irrel (headCount S' k) 0 _ _ htc']
        rw [buildL_eta_zero, buildL_eta_zero]
        have hsz' : ((tailsOf S k).map (fun l => l.length + 1)).sum ≤ N := by
          have h1 := tails_measure_le S k
          omega
        exact ih (tailsOf S k) (tailsOf S' k) hsz' (norm_tailsOf S k hS)
          (norm_tailsOf S' k hS') htperm k

/-! ## The rendered tree is sorted -/

theorem chainLeB_of_sorted (l : List String) (h : List.Sorted strLe l) :
    chainLeB l = true := by
  induction l with
  | nil => rfl
  | cons a l ih =>
    cases l with
    | nil => rfl
    | cons b l' =>
      have hab : strLe a b := (List.sorted_cons.mp h).1 b (by simp)
      have htail := ih (List.sorted_cons.mp h).2
      simp only [chainLeB, Bool.and_eq_true]
      exact ⟨hab, htail⟩

theorem render_name (t : HNode) (name : String) :
    D3.name (hierarchy_to_d3 t name) = name := by
  cases t with
  | mk c cs =>
    by_cases h : cs = []
    · subst h; rw [render_nil]; rfl
    · rw [render_cons c cs name h]; rfl

theorem render_sorted_aux (n : Nat) : ∀ t, sizeOf t < n →
    ∀ name, d3SortedB (hierarchy_to_d3 t name) = true := by
  induction n with
  | zero => intro t h; exact absurd h (Nat.not_lt_zero _)
  | succ n ih =>
    intro t ht name
    cases t with
    | mk c cs =>
      by_cases h : cs = []
      · subst h; rw [render_nil, d3SortedB_leaf]
      · rw [render_cons c cs name h, d3SortedB_node, Bool.and_eq_true]
        constructor
        · rw [List.map_map]
          have hmap : ((sortPairs cs).map (D3.name ∘ fun q => hierarchy_to_d3 q.2 q.1)) =
              (sortPairs cs).map Prod.fst := by
            apply List.map_congr_left
            intro q _
            exact render_name q.2 q.1
          rw [hmap]
          exact chainLeB_of_sorted _ (sortPairs_keys_sorted cs)
        · rw [List.all_eq_true]
          intro d hd
          obtain ⟨q, hq, rfl⟩ := List.mem_map.mp hd
          have hqcs : q ∈ cs := (sortPairs_perm cs).subset hq
          have h1 : sizeOf q < sizeOf cs := List.sizeOf_lt_of_mem hqcs
          have h2 : sizeOf q.2 < sizeOf q := by
            cases _hq : q with
            | mk k v => simp
          have h3 : sizeOf q.2 < n := by
            simp only [HNode.mk.sizeOf_spec] at ht
            omega
          exact ih q.2 h3 q.1

theorem render_sortedB (t : HNode) (name : String) :
    d3SortedB (hierarchy_to_d3 t name) = true :=
  render_sorted_aux (sizeOf t + 1) t (by omega) name

/-! ## Leaf sums of the rendered tree -/

theorem leafSumD3_render_aux (n : Nat) : ∀ t, sizeOf t < n →
    ∀ name, leafSumD3 (hierarchy_to_d3 t name) = leafSumH t := by
  induction n with
  | zero => intro t h; exact absurd h (Nat.not_lt_zero _)
  | succ n ih =>
    intro t ht name
    cases t with
    | mk c cs =>
      by_cases h : cs = []
      · subst h
        rw [render_nil, leafSumD3_leaf, leafSumH_nil]
      · rw [render_cons c cs name h, leafSumD3_node, leafSumH_cons c cs h]
        rw [List.map_map]
        have hmap : ((sortPairs cs).map (leafSumD3 ∘ fun q => hierarchy_to_d3 q.2 q.1)) =
            (sortPairs cs).map (fun q => leafSumH q.2) := by
          apply List.map_congr_left
          intro q hq
          have hqcs : q ∈ cs := (sortPairs_perm cs).subset hq
          have h1 : sizeOf q < sizeOf cs := List.sizeOf_lt_of_mem hqcs
          have h2 : sizeOf q.2 < sizeOf q := by
            cases _hq : q with
            | mk k v => simp
          have h3 : sizeOf q.2 < n := by
            simp only [HNode.mk.sizeOf_spec] at ht
            omega
          exact ih q.2 h3 q.1
        rw [hmap]
        exact List.Perm.sum_eq ((sortPairs_perm cs).map _)

theorem leafSumD3_render (t : HNode) (name : String) :
    leafSumD3 (hierarchy_to_d3 t name) = leafSumH t :=
  leafSumD3_render_aux (sizeOf t + 1) t (by omega) name

/-! ## Splitting a count over head segments -/

theorem map_by_key {β : Type} (cs : List (String × HNode))
    (hnd : (cs.map Prod.fst).Nodup) (F : HNode → String → β) :
    cs.map (fun q => F q.2 q.1) =
      (cs.map Prod.fst).map (fun k => F ((assocFind cs k).getD (HNode.mk 0 [])) k) := by
  rw [List.map_map]
  apply List.map_congr_left
  intro q hq
  have hfind : assocFind cs q.1 = some q.2 :=
    assocFind_of_mem_nodup cs q.1 q.2 hnd (by simpa using hq)
  simp [Function.comp, hfind]

theorem sum_if_single (K : List String) (k : String) (x : Nat) (g : String → Nat)
    (hnd : K.Nodup) :
    (K.map (fun j => if j = k then x + g j else g j)).sum =
      (K.map g).sum + (if k ∈ K then x else 0) := by
  induction K with
  | nil => simp
  | cons a K ih =>
    simp only [List.nodup_cons] at hnd
    simp only [List.map_cons, List.sum_cons]
    by_cases hak : a = k
    · subst hak
      rw [if_pos rfl, if_pos (List.mem_cons_self a K)]
      have hKmap : K.map (fun j => if j = a then x + g j else g j) = K.map g := by
        apply List.map_congr_left
        intro j hj
        rw [if_neg (by intro hja; rw [hja] at hj; exact hnd.1 hj)]
      rw [hKmap]
      omega
    · rw [if_neg hak, ih hnd.2]
      by_cases hkK : k ∈ K
      · rw [if_pos hkK, if_pos (List.mem_cons_of_mem a hkK)]
        omega
      · rw [if_neg hkK,
          if_neg (by simp only [List.mem_cons, not_or]
                     exact ⟨fun h => hak h.symm, hkK⟩)]
        omega

theorem tailsOf_cons_nilhead (S : List (List String)) (k : String) :
    tailsOf ([] :: S) k = tailsOf S k := rfl

theorem countP_split (S : List (List String)) (P : List String → Bool)
    (K : List String) (hnd : K.Nodup)
    (hcover : ∀ a r, (a :: r) ∈ S → P (a :: r) = true → a ∈ K)
    (hnilP : P [] = false) :
    S.countP P =
      (K.map (fun k => (tailsOf S k).countP (fun r => P (k :: r)))).sum := by
  induction S with
  | nil => simp [tailsOf_nil]
  | cons l S ihS =>
    have hcover' : ∀ a r, (a :: r) ∈ S → P (a :: r) = true → a ∈ K :=
      fun a r h hp => hcover a r (List.mem_cons_of_mem _ h) hp
    cases l with
    | nil =>
      rw [List.countP_cons_of_neg _ _ (by simp [hnilP])]
      have hmapeq : K.map (fun k => (tailsOf ([] :: S) k).countP (fun r => P (k :: r))) =
          K.map (fun k => (tailsOf S k).countP (fun r => P (k :: r))) := by
        apply List.map_congr_left
        intro k _
        rw [tailsOf_cons_nilhead]
      rw [hmapeq]
      exact ihS hcover'
    | cons a r =>
      rw [List.countP_cons]
      have htail : ∀ k, tailsOf ((a :: r) :: S) k =
          if k = a then r :: tailsOf S k else tailsOf S k := by
        intro k
        by_cases h : k = a
        · subst h
          show tailsOf ([k :: r] ++ S) k = _
          rw [tailsOf_append, tailsOf_singleton_eq]
          simp
        · show tailsOf ([a :: r] ++ S) k = _
          rw [tailsOf_append, tailsOf_singleton_ne a k r (fun hh => h hh.symm)]
          simp [h]
      have hmapeq : K.map (fun k =>
            (tailsOf ((a :: r) :: S) k).countP (fun r' => P (k :: r'))) =
          K.map (fun k =>
            if k = a then (if P (a :: r) = true then 1 else 0) +
              (tailsOf S k).countP (fun r' => P (k :: r'))
            else (tailsOf S k).countP (fun r' => P (k :: r'))) := by
        apply List.map_congr_left
        intro k _
        rw [htail k]
        by_cases h : k = a
        · subst h
          simp only [if_true, eq_self_iff_true, List.countP_cons]
          omega
        · rw [if_neg h, if_neg h]
      rw [hmapeq,
        sum_if_single K a (if P (a :: r) = true then 1 else 0) _ hnd,
        ihS hcover']
      by_cases hP : P (a :: r) = true
      · have haK : a ∈ K := hcover a r (List.mem_cons_self _ _) hP
        simp [hP, haK]
      · simp [hP]

/-! ## Maximal insertions and leaf sums -/

theorem maximal_cons_iff (S : List (List String)) (hS : ∀ l ∈ S, "" ∉ l)
    (k : String) (hk : k ≠ "") (r : List String) (hr : "" ∉ r) :
    maximalIn S (k :: r) ↔ ∀ r' ∈ tailsOf S k, r <+: r' → r = r' := by
  have hkr : "" ∉ k :: r := by
    simp only [List.mem_cons, not_or]
    exact ⟨Ne.symm hk, hr⟩
  unfold maximalIn
  rw [nseg_eq_self _ hkr]
  constructor
  · rintro ⟨_, h⟩ r' hr' hpre
    have hl' : (k :: r') ∈ S := (mem_tailsOf S k r').mp hr'
    have h2 := h (k :: r') hl'
    rw [nseg_eq_self _ (hS _ hl')] at h2
    have h3 : (k :: r : List String) = k :: r' :=
      h2 (List.cons_prefix_cons.mpr ⟨rfl, hpre⟩)
    injection h3 with h4 h5
  · intro h
    refine ⟨by simp, ?_⟩
    intro l' hl' hpre
    rw [nseg_eq_self _ (hS _ hl')] at hpre ⊢
    cases l' with
    | nil => simp at hpre
    | cons a r' =>
      obtain ⟨hka, hrr⟩ := List.cons_prefix_cons.mp hpre
      subst hka
      have hmem : r' ∈ tailsOf S k := (mem_tailsOf S k r').mpr hl'
      rw [h r' hmem hrr]

theorem maximal_decide_eq (S : List (List String)) (hS : ∀ l ∈ S, "" ∉ l)
    (k : String) (hk : k ≠ "") (hex : ∃ r0 ∈ tailsOf S k, r0 ≠ [])
    (r : List String) (hr : r ∈ tailsOf S k) :
    decide (maximalIn S (k :: r)) = decide (maximalIn (tailsOf S k) r) := by
  rw [decide_eq_decide]
  have hrn : "" ∉ r := norm_tailsOf S k hS r hr
  rw [maximal_cons_iff S hS k hk r hrn]
  unfold maximalIn
  constructor
  · intro h
    by_cases hre : r = []
    · subst hre
      obtain ⟨r0, hr0, hr0ne⟩ := hex
      exact absurd (h r0 hr0 (by simp)).symm hr0ne
    · refine ⟨by rwa [nseg_eq_self _ hrn], ?_⟩
      intro r' hr' hpre
      have hr'n := norm_tailsOf S k hS r' hr'
      rw [nseg_eq_self _ hrn, nseg_eq_self _ hr'n] at hpre ⊢
      exact h r' hr' hpre
  · rintro ⟨_, h⟩ r' hr' hpre
    have hr'n := norm_tailsOf S k hS r' hr'
    have h2 := h r' hr'
      (by rw [nseg_eq_self _ hrn, nseg_eq_self _ hr'n]; exact hpre)
    rw [nseg_eq_self _ hrn, nseg_eq_self _ hr'n] at h2
    exact h2

theorem map_leafSum_by_key (cs : List (String × HNode))
    (hnd : (cs.map Prod.fst).Nodup) :
    cs.map (fun q => leafSumH q.2) =
      (cs.map Prod.fst).map
        (fun k => leafSumH ((assocFind cs k).getD (HNode.mk 0 []))) := by
  rw [List.map_map]
  apply List.map_congr_left
  intro q hq
  have hfind : assocFind cs q.1 = some q.2 :=
    assocFind_of_mem_nodup cs q.1 q.2 hnd (by simpa using hq)
  simp [Function.comp, hfind]

theorem leafSumH_count_irrel (m n : Nat) (cs : List (String × HNode))
    (h : cs ≠ []) : leafSumH (HNode.mk m cs) = leafSumH (HNode.mk n cs) := by
  rw [leafSumH_cons m cs h, leafSumH_cons n cs h]

theorem leafSumH_buildL (N : Nat) : ∀ S : List (List String),
    (S.map (fun l => l.length + 1)).sum ≤ N → (∀ l ∈ S, "" ∉ l) →
    leafSumH (buildL S) = S.countP (fun l => decide (maximalIn S l)) := by
  induction N with
  | zero =>
    intro S hsz _
    have hSnil : S = [] := by
      cases S with
      | nil => rfl
      | cons l S => simp at hsz
    subst hSnil
    rw [show buildL [] = HNode.mk 0 [] from rfl, leafSumH_nil]
    rfl
  | succ N ih =>
    intro S hsz hS
    by_cases hnil : (buildL S).children = []
    · have hall := (buildL_children_nil S hS).mp hnil
      rw [buildL_empty S hall, leafSumH_nil]
      symm
      rw [List.countP_eq_zero]
      intro l hl
      rw [hall l hl]
      simp [maximalIn, nseg]
    · have hkeysnd := buildL_keys_nodup S
      have hLHS : leafSumH (buildL S) =
          (((buildL S).children.map Prod.fst).map
            (fun k => leafSumH ((assocFind (buildL S).children k).getD
              (HNode.mk 0 [])))).sum := by
        conv_lhs => rw [HNode.eta (buildL S)]
        rw [leafSumH_cons _ _ hnil, map_leafSum_by_key _ hkeysnd]
      rw [hLHS]
      rw [countP_split S _ ((buildL S).children.map Prod.fst) hkeysnd
        (fun a r hmem _ => by
          have hm : headCount S a ≠ 0 := by
            have : 0 < S.countP (fun l => l.head? = some a) :=
              List.countP_pos_iff.mpr ⟨a :: r, hmem, by simp⟩
            unfold headCount
            omega
          exact (buildL_keyMem S hS a).mpr hm)
        (by simp [maximalIn, nseg])]
      congr 1
      apply List.map_congr_left
      intro k hkK
      have hm : headCount S k ≠ 0 := (buildL_keyMem S hS k).mp hkK
      have hkne : k ≠ "" := by
        have : 0 < S.countP (fun l => l.head? = some k) := by
          unfold headCount at hm
          omega
        obtain ⟨l, hl, hhead⟩ := List.countP_pos_iff.mp this
        cases l with
        | nil => simp at hhead
        | cons a r =>
          simp only [List.head?_cons, Option.some.injEq, decide_eq_true_eq] at hhead
          subst hhead
          intro hke
          exact hS _ hl (hke ▸ List.mem_cons_self _ _)
      rw [buildL_find S hS k, if_neg hm]
      simp only [Option.getD_some]
      rw [setCount_eq]
      by_cases htc : (buildL (tailsOf S k)).children = []
      · have hall : ∀ r ∈ tailsOf S k, r = [] :=
          (buildL_children_nil _ (norm_tailsOf S k hS)).mp htc
        rw [htc, leafSumH_nil]
        symm
        rw [List.countP_eq_length.mpr, length_tailsOf]
        intro r hr
        have hre : r = [] := hall r hr
        subst hre
        rw [decide_eq_true_eq]
        rw [maximal_cons_iff S hS k hkne [] (by simp)]
        intro r' hr' _
        exact (hall r' hr').symm
      · have hex : ∃ r0 ∈ tailsOf S k, r0 ≠ [] := by
          by_contra hcon
          push_neg at hcon
          exact htc ((buildL_children_nil _ (norm_tailsOf S k hS)).mpr hcon)
        have hcong : (tailsOf S k).countP (fun r => decide (maximalIn S (k :: r))) =
            (tailsOf S k).countP
              (fun r => decide (maximalIn (tailsOf S k) r)) :=
          List.countP_congr (fun r hr => by
            rw [maximal_decide_eq S hS k hkne hex r hr])
        rw [hcong]
        rw [leafSumH_count_irrel (headCount S k) 0 _ htc, buildL_eta_zero]
        have hsz' : ((tailsOf S k).map (fun l => l.length + 1)).sum ≤ N := by
          have h1 := tails_measure_le S k
          omega
        exact ih (tailsOf S k) hsz' (norm_tailsOf S k hS)

/-! ## Sitemap seeder lemmas -/

theorem extractLocs_startsWith (basePfx : String) (lines : List String)
    (u : String) (h : u ∈ extractLocs basePfx lines) :
    strStarts u basePfx = true := by
  obtain ⟨line0, _, hf⟩ := List.mem_filterMap.mp h
  simp only [extractLocs] at hf
  split at hf
  · split at hf
    · rename_i hpfx
      injection hf with hf'
      rw [← hf']
      exact hpfx
    · cases hf
  · cases hf

theorem mem_sitemap_foldl (basePfx : String)
    (resps : List (Option (Nat × List String))) (acc : List String) (u : String) :
    u ∈ resps.foldl (fun acc o =>
        match o with
        | none => acc
        | some (code, lines) =>
          if code = 200 ∧ lines ≠ [] then acc ++ extractLocs basePfx lines
          else acc) acc ↔
      u ∈ acc ∨ ∃ code lines, some (code, lines) ∈ resps ∧ code = 200 ∧
        lines ≠ [] ∧ u ∈ extractLocs basePfx lines := by
  induction resps generalizing acc with
  | nil => simp
  | cons o resps ih =>
    simp only [List.foldl_cons]
    rw [ih]
    cases o with
    | none =>
      show (u ∈ acc ∨ _) ↔ _
      constructor
      · rintro (h | ⟨c, l, hmem, hc, hl, hu⟩)
        · exact Or.inl h
        · exact Or.inr ⟨c, l, List.mem_cons_of_mem _ hmem, hc, hl, hu⟩
      · rintro (h | ⟨c, l, hmem, hc, hl, hu⟩)
        · exact Or.inl h
        · rcases List.mem_cons.mp hmem with h' | h'
          · cases h'
          · exact Or.inr ⟨c, l, h', hc, hl, hu⟩
    | some p =>
      obtain ⟨code, lines⟩ := p
      show (u ∈ (if code = 200 ∧ lines ≠ [] then acc ++ extractLocs basePfx lines
        else acc) ∨ _) ↔ _
      by_cases hcond : code = 200 ∧ lines ≠ []
      · rw [if_pos hcond]
        constructor
        · rintro (h | ⟨c, l, hmem, hc, hl, hu⟩)
          · rcases List.mem_append.mp h with h' | h'
            · exact Or.inl h'
            · exact Or.inr ⟨code, lines, List.mem_cons_self _ _, hcond.1,
                hcond.2, h'⟩
          · exact Or.inr ⟨c, l, List.mem_cons_of_mem _ hmem, hc, hl, hu⟩
        · rintro (h | ⟨c, l, hmem, hc, hl, hu⟩)
          · exact Or.inl (List.mem_append.mpr (Or.inl h))
          · rcases List.mem_cons.mp hmem with h' | h'
            · injection h' with h''
              have hc' : c = code := congrArg Prod.fst h''
              have hl' : l = lines := congrArg Prod.snd h''
              subst hc'; subst hl'
              exact Or.inl (List.mem_append.mpr (Or.inr hu))
            · exact Or.inr ⟨c, l, h', hc, hl, hu⟩
      · rw [if_neg hcond]
        constructor
        · rintro (h | ⟨c, l, hmem, hc, hl, hu⟩)
          · exact Or.inl h
          · exact Or.inr ⟨c, l, List.mem_cons_of_mem _ hmem, hc, hl, hu⟩
        · rintro (h | ⟨c, l, hmem, hc, hl, hu⟩)
          · exact Or.inl h
          · rcases List.mem_cons.mp hmem with h' | h'
            · injection h' with h''
              have hc' : c = code := congrArg Prod.fst h''
              have hl' : l = lines := congrArg Prod.snd h''
              subst hc'; subst hl'
              exact absurd ⟨hc, hl⟩ hcond
            · exact Or.inr ⟨c, l, h', hc, hl, hu⟩

theorem fetch_sitemap_nodup (basePfx : String)
    (resps : List (Option (Nat × List String))) :
    (fetch_sitemap_urls basePfx resps).Nodup := by
  unfold fetch_sitemap_urls
  exact (List.perm_insertionSort strLe _).nodup_iff.mpr (List.nodup_dedup _)

theorem fetch_sitemap_sorted (basePfx : String)
    (resps : List (Option (Nat × List String))) :
    List.Sorted strLe (fetch_sitemap_urls basePfx resps) := by
  unfold fetch_sitemap_urls
  exact List.sorted_insertionSort strLe _

theorem fetch_sitemap_mem (basePfx : String)
    (resps : List (Option (Nat × List String))) (u : String) :
    u ∈ fetch_sitemap_urls basePfx resps ↔
      ∃ code lines, some (code, lines) ∈ resps ∧ code = 200 ∧ lines ≠ [] ∧
        u ∈ extractLocs basePfx lines := by
  unfold fetch_sitemap_urls
  rw [(List.perm_insertionSort strLe _).mem_iff, List.mem_dedup,
    mem_sitemap_foldl]
  simp

/-! ## Crawl loop: one-iteration equations -/

theorem enqueueChildren_eq (url : String) (depth : Nat) (links : List String)
    (st : CrawlState) :
    enqueueChildren url depth links st =
      { st with
        q := st.q ++ (links.filter (fun c => !decide (c ∈ st.visited))).map
          (fun c => (c, some url, depth + 1)),
        edges := st.edges ++ (links.filter (fun c => !decide (c ∈ st.visited))).map
          (fun c => EdgeRecord.mk url c) } := by
  induction links generalizing st with
  | nil => simp [enqueueChildren]
  | cons c links ih =>
    show (enqueueChildren url depth links
        (if c ∈ st.visited then st
         else { st with q := st.q ++ [(c, some url, depth + 1)],
                        edges := st.edges ++ [EdgeRecord.mk url c] })) = _
    by_cases hc : c ∈ st.visited
    · rw [if_pos hc, ih st]
      simp [List.filter_cons, hc]
    · rw [if_neg hc, ih]
      simp [List.filter_cons, hc, List.append_assoc]

theorem enqueueChildren_fields (url : String) (depth : Nat)
    (links : List String) (st : CrawlState) :
    (enqueueChildren url depth links st).visited = st.visited ∧
    (enqueueChildren url depth links st).pages = st.pages ∧
    (enqueueChildren url depth links st).errors = st.errors ∧
    (enqueueChildren url depth links st).pages_count = st.pages_count ∧
    (enqueueChildren url depth links st).hroot = st.hroot := by
  rw [enqueueChildren_eq]
  exact ⟨rfl, rfl, rfl, rfl, rfl⟩

theorem step_nilq (env : Env) (s : CrawlState) (h : s.q = []) :
    step env s = s := by
  unfold step
  rw [h]

theorem step_skip (env : Env) (s : CrawlState) (url : String)
    (parent : Option String) (depth : Nat) (rest : List (String × Option String × Nat))
    (r : Reason) (hq : s.q = (url, parent, depth) :: rest)
    (hsc : scope_check env s.visited url depth = some r) :
    step env s = { s with q := rest } := by
  simp only [step, hq, hsc]

theorem step_blocked (env : Env) (s : CrawlState) (url : String)
    (parent : Option String) (depth : Nat) (rest : List (String × Option String × Nat))
    (hq : s.q = (url, parent, depth) :: rest)
    (hsc : scope_check env s.visited url depth = none)
    (hb : (env.obeyRobots && !(can_fetch (rpOf env) url)) = true)
    (hrec : env.recordBlocked = true) :
    step env s =
      { s with
        q := rest
        visited := url :: s.visited
        pages := s.pages ++
          [⟨url, none, "BLOQUEADA_POR_ROBOTS", "BLOQUEADA_POR_ROBOTS", none,
            parent, depth⟩]
        pages_count := s.pages_count + 1 } := by
  simp only [step, hq, hsc, hb, hrec, if_true]

theorem step_blocked_norec (env : Env) (s : CrawlState) (url : String)
    (parent : Option String) (depth : Nat) (rest : List (String × Option String × Nat))
    (hq : s.q = (url, parent, depth) :: rest)
    (hsc : scope_check env s.visited url depth = none)
    (hb : (env.obeyRobots && !(can_fetch (rpOf env) url)) = true)
    (hrec : env.recordBlocked = false) :
    step env s =
      { s with
        q := rest
        visited := url :: s.visited } := by
  simp only [step, hq, hsc, hb, hrec, if_true, Bool.false_eq_true, if_false]

theorem step_fetch (env : Env) (s : CrawlState) (url : String)
    (parent : Option String) (depth : Nat) (rest : List (String × Option String × Nat))
    (hq : s.q = (url, parent, depth) :: rest)
    (hsc : scope_check env s.visited url depth = none)
    (hb : (env.obeyRobots && !(can_fetch (rpOf env) url)) = false) :
    step env s = fetchStep env url parent depth { s with q := rest } := by
  simp only [step, hq, hsc, hb, Bool.false_eq_true, if_false]

theorem step_exn (env : Env) (s : CrawlState) (url : String)
    (parent : Option String) (depth : Nat) (rest : List (String × Option String × Nat))
    (e : String) (hq : s.q = (url, parent, depth) :: rest)
    (hsc : scope_check env s.visited url depth = none)
    (hb : (env.obeyRobots && !(can_fetch (rpOf env) url)) = false)
    (hf : env.fetch url = .exn e) :
    step env s =
      { s with
        q := rest
        visited := url :: s.visited
        errors := s.errors ++ [⟨url, e⟩]
        pages := s.pages ++
          [⟨url, none, "SIN_TITULO", "SIN_DESCRIPCION", none, parent, depth⟩]
        pages_count := s.pages_count + 1
        hroot := insert_path s.hroot (segsOf env url) } := by
  rw [step_fetch env s url parent depth rest hq hsc hb]
  simp only [fetchStep, fetchEval, hf]
  show enqueueChildren url depth [] _ = _
  rfl

theorem step_html (env : Env) (s : CrawlState) (url : String)
    (parent : Option String) (depth : Nat) (rest : List (String × Option String × Nat))
    (r : RespModel) (hq : s.q = (url, parent, depth) :: rest)
    (hsc : scope_check env s.visited url depth = none)
    (hb : (env.obeyRobots && !(can_fetch (rpOf env) url)) = false)
    (hf : env.fetch url = .resp r) (hh : (r.is_html && r.has_body) = true) :
    step env s =
      enqueueChildren url depth (links_of env r)
        { s with
          q := rest
          visited := url :: s.visited
          pages := s.pages ++
            [⟨url, some r.status, r.title, r.meta_description, r.canonical,
              parent, depth⟩]
          pages_count := s.pages_count + 1
          hroot := insert_path s.hroot (segsOf env url) } := by
  rw [step_fetch env s url parent depth rest hq hsc hb]
  simp only [fetchStep, fetchEval, hf, hh, if_true, List.append_nil]

theorem step_nothtml (env : Env) (s : CrawlState) (url : String)
    (parent : Option String) (depth : Nat) (rest : List (String × Option String × Nat))
    (r : RespModel) (hq : s.q = (url, parent, depth) :: rest)
    (hsc : scope_check env s.visited url depth = none)
    (hb : (env.obeyRobots && !(can_fetch (rpOf env) url)) = false)
    (hf : env.fetch url = .resp r) (hh : (r.is_html && r.has_body) = false) :
    step env s =
      { s with
        q := rest
        visited := url :: s.visited
        pages := s.pages ++
          [⟨url, some r.status, "SIN_TITULO", "SIN_DESCRIPCION", none, parent,
            depth⟩]
        pages_count := s.pages_count + 1
        hroot := insert_path s.hroot (segsOf env url) } := by
  rw [step_fetch env s url parent depth rest hq hsc hb]
  simp only [fetchStep, fetchEval, hf, hh, Bool.false_eq_true, if_false,
    List.append_nil]
  show enqueueChildren url depth [] _ = _
  rfl

/-! ## Scope filter characterization -/

theorem scope_check_eq_depth (env : Env) (v : List String) (url : String)
    (d : Nat) : scope_check env v url d = some .depth ↔ d > env.maxDepth := by
  unfold scope_check
  split_ifs with h1 h2 h3 <;> simp_all

theorem scope_check_eq_origin (env : Env) (v : List String) (url : String)
    (d : Nat) : scope_check env v url d = some .origin ↔
      d ≤ env.maxDepth ∧ env.originOf env.baseUrl ≠ env.originOf url := by
  unfold scope_check
  split_ifs with h1 h2 h3 <;> simp_all

theorem scope_check_eq_visited (env : Env) (v : List String) (url : String)
    (d : Nat) : scope_check env v url d = some .visited ↔
      d ≤ env.maxDepth ∧ env.originOf env.baseUrl = env.originOf url ∧
        url ∈ v := by
  unfold scope_check
  split_ifs with h1 h2 h3 <;> simp_all

theorem scope_check_eq_none (env : Env) (v : List String) (url : String)
    (d : Nat) : scope_check env v url d = none ↔
      d ≤ env.maxDepth ∧ env.originOf env.baseUrl = env.originOf url ∧
        url ∉ v := by
  unfold scope_check
  split_ifs with h1 h2 h3 <;> simp_all

/-! ## Page-record uniqueness invariant -/

theorem pages_append_inv (s : CrawlState) (url : String) (pr0 : PageRecord)
    (h1 : (s.pages.map PageRecord.url).Nodup)
    (h2 : ∀ pr ∈ s.pages, pr.url ∈ s.visited)
    (hnv : url ∉ s.visited) (hu : pr0.url = url) :
    ((s.pages ++ [pr0]).map PageRecord.url).Nodup ∧
      ∀ pr ∈ s.pages ++ [pr0], pr.url ∈ url :: s.visited := by
  have hnp : url ∉ s.pages.map PageRecord.url := by
    intro hmem
    obtain ⟨pr, hpr, hpru⟩ := List.mem_map.mp hmem
    exact hnv (hpru ▸ h2 pr hpr)
  constructor
  · rw [List.map_append, List.nodup_append]
    refine ⟨h1, by simp, ?_⟩
    intro a ha hb
    simp only [List.map_cons, List.map_nil, List.mem_singleton, hu] at hb
    rw [hb] at ha
    exact hnp ha
  · intro pr hpr
    rcases List.mem_append.mp hpr with h | h
    · exact List.mem_cons_of_mem _ (h2 pr h)
    · rw [List.mem_singleton.mp h, hu]
      exact List.mem_cons_self _ _

theorem step_c1_inv (env : Env) (s : CrawlState)
    (h1 : (s.pages.map PageRecord.url).Nodup)
    (h2 : ∀ pr ∈ s.pages, pr.url ∈ s.visited) :
    ((step env s).pages.map PageRecord.url).Nodup ∧
      ∀ pr ∈ (step env s).pages, pr.url ∈ (step env s).visited := by
  rcases hq : s.q with _ | ⟨⟨url, parent, depth⟩, rest⟩
  · rw [step_nilq env s hq]; exact ⟨h1, h2⟩
  · rcases hsc : scope_check env s.visited url depth with _ | r
    · have hnv : url ∉ s.visited :=
        ((scope_check_eq_none env s.visited url depth).mp hsc).2.2
      rcases hb : (env.obeyRobots && !(can_fetch (rpOf env) url)) with _ | _
      · rcases hfo : env.fetch url with e | r
        · rw [step_exn env s url parent depth rest e hq hsc hb hfo]
          exact pages_append_inv s url _ h1 h2 hnv rfl
        · rcases hh : (r.is_html && r.has_body) with _ | _
          · rw [step_nothtml env s url parent depth rest r hq hsc hb hfo hh]
            exact pages_append_inv s url _ h1 h2 hnv rfl
          · rw [step_html env s url parent depth rest r hq hsc hb hfo hh]
            rw [enqueueChildren_eq]
            exact pages_append_inv s url _ h1 h2 hnv rfl
      · rcases hrec : env.recordBlocked with _ | _
        · rw [step_blocked_norec env s url parent depth rest hq hsc hb hrec]
          exact ⟨h1, fun pr hpr => List.mem_cons_of_mem _ (h2 pr hpr)⟩
        · rw [step_blocked env s url parent depth rest hq hsc hb hrec]
          exact pages_append_inv s url _ h1 h2 hnv rfl
    · rw [step_skip env s url parent depth rest r hq hsc]
      exact ⟨h1, h2⟩

theorem run_c1_inv (env : Env) (n : Nat) : ∀ s : CrawlState,
    (s.pages.map PageRecord.url).Nodup →
    (∀ pr ∈ s.pages, pr.url ∈ s.visited) →
    ((run env s n).pages.map PageRecord.url).Nodup ∧
      ∀ pr ∈ (run env s n).pages, pr.url ∈ (run env s n).visited := by
  induction n with
  | zero => intro s h1 h2; exact ⟨h1, h2⟩
  | succ n ih =>
    intro s h1 h2
    have hrun : run env s (n + 1) =
        if loopCond env s then run env (step env s) n else s := rfl
    rw [hrun]
    by_cases hc : loopCond env s = true
    · rw [if_pos hc]
      obtain ⟨g1, g2⟩ := step_c1_inv env s h1 h2
      exact ih (step env s) g1 g2
    · rw [if_neg hc]
      exact ⟨h1, h2⟩

/-! ## Page counter bound -/

theorem step_count (env : Env) (s : CrawlState) :
    (step env s).pages_count ≤ s.pages_count + 1 ∧
      (step env s).pages.length + s.pages_count =
        (step env s).pages_count + s.pages.length := by
  rcases hq : s.q with _ | ⟨⟨url, parent, depth⟩, rest⟩
  · rw [step_nilq env s hq]; omega
  · rcases hsc : scope_check env s.visited url depth with _ | r
    · rcases hb : (env.obeyRobots && !(can_fetch (rpOf env) url)) with _ | _
      · rcases hfo : env.fetch url with e | r
        · rw [step_exn env s url parent depth rest e hq hsc hb hfo]
          simp only [List.length_append, List.length_singleton]
          omega
        · rcases hh : (r.is_html && r.has_body) with _ | _
          · rw [step_nothtml env s url parent depth rest r hq hsc hb hfo hh]
            simp only [List.length_append, List.length_singleton]
            omega
          · rw [step_html env s url parent depth rest r hq hsc hb hfo hh]
            rw [enqueueChildren_eq]
            simp only [List.length_append, List.length_singleton]
            omega
      · rcases hrec : env.recordBlocked with _ | _
        · rw [step_blocked_norec env s url parent depth rest hq hsc hb hrec]
          dsimp only
          omega
        · rw [step_blocked env s url parent depth rest hq hsc hb hrec]
          simp only [List.length_append, List.length_singleton]
          omega
    · rw [step_skip env s url parent depth rest r hq hsc]
      dsimp only
      omega

theorem run_count_inv (env : Env) (M : Nat) (hM : env.maxPages = some M)
    (n : Nat) : ∀ s : CrawlState, s.pages_count ≤ M →
    s.pages.length = s.pages_count →
    (run env s n).pages_count ≤ M ∧
      (run env s n).pages.length = (run env s n).pages_count := by
  induction n with
  | zero => intro s h1 h2; exact ⟨h1, h2⟩
  | succ n ih =>
    intro s h1 h2
    have hrun : run env s (n + 1) =
        if loopCond env s then run env (step env s) n else s := rfl
    rw [hrun]
    by_cases hc : loopCond env s = true
    · rw [if_pos hc]
      have hlt : s.pages_count < M := by
        unfold loopCond at hc
        rw [hM] at hc
        simp only [Bool.and_eq_true, decide_eq_true_eq] at hc
        exact hc.2
      obtain ⟨hs1, hs2⟩ := step_count env s
      exact ih (step env s) (by omega) (by omega)
    · rw [if_neg hc]
      exact ⟨h1, h2⟩

/-! ## Claim theorems -/

/-- Claim C1: for every crawl, no URL appears in more than one PageRecord —
the URLs of the emitted page records are pairwise distinct, however long the
loop runs and whatever the environment returns, because a URL is added to the
visited set exactly when it is finalized and already-visited dequeued entries
are skipped without emitting a record. -/
theorem claim_c1_uniqueness (env : Env) (n : Nat) :
    ((crawl env n).pages.map PageRecord.url).Nodup :=
  (run_c1_inv env n (initState env) (by simp [initState])
    (by simp [initState])).1

/-- Claim C10: the configured maximum page count bounds the total number of
page records of any kind (robots-blocked placeholders and fetched pages both
increment the same counter the loop condition compares against the
maximum). -/
theorem claim_c10_max_pages (env : Env) (n M : Nat)
    (hM : env.maxPages = some M) : (crawl env n).pages.length ≤ M := by
  rw [show crawl env n = run env (initState env) n from rfl]
  obtain ⟨h1, h2⟩ := run_count_inv env M hM n (initState env)
    (by simp [initState]) (by simp [initState])
  omega

/-- Witness for claim C10 at a concrete environment with a page limit of
one. -/
theorem claim_c10_witness : (crawl envW 4).pages.length ≤ 1 :=
  claim_c10_max_pages envW 4 1 rfl

/-- Claim C5: a transport-level fetch failure emits exactly one ErrorRecord
with the URL and message, still produces exactly one PageRecord with null
status code and the sentinel title and description, marks the URL visited,
emits no edges, and leaves the rest of the frontier to be processed. -/
theorem claim_c5_network_error (env : Env) (s : CrawlState) (url : String)
    (parent : Option String) (depth : Nat)
    (rest : List (String × Option String × Nat)) (e : String)
    (hq : s.q = (url, parent, depth) :: rest)
    (hsc : scope_check env s.visited url depth = none)
    (hb : (env.obeyRobots && !(can_fetch (rpOf env) url)) = false)
    (hf : env.fetch url = .exn e) :
    (step env s).errors = s.errors ++ [⟨url, e⟩] ∧
    (step env s).pages = s.pages ++
      [⟨url, none, "SIN_TITULO", "SIN_DESCRIPCION", none, parent, depth⟩] ∧
    (step env s).visited = url :: s.visited ∧
    (step env s).q = rest ∧
    (step env s).edges = s.edges ∧
    (step env s).pages_count = s.pages_count + 1 := by
  rw [step_exn env s url parent depth rest e hq hsc hb hf]
  exact ⟨rfl, rfl, rfl, rfl, rfl, rfl⟩

/-- Witness for claim C5 at a concrete environment whose fetches all time
out. -/
theorem claim_c5_witness :
    (step envE (CrawlState.mk [("u", none, 0)] [] [] [] [] 0
      (HNode.mk 0 []))).errors = [ErrorRecord.mk "u" "timeout"] :=
  (claim_c5_network_error envE
    (CrawlState.mk [("u", none, 0)] [] [] [] [] 0 (HNode.mk 0 []))
    "u" none 0 [] "timeout" rfl (by decide) rfl rfl).1

/-- Counterexample to claim C4 as stated: with robots compliance enabled and
the robots read having raised (so the directives were never parsed), the
permission check answers `false` for every URL — the policy fails closed, not
open: the crawl records the URL as robots-blocked and never fetches it (no
error record from the would-be failing fetch). -/
theorem claim_c4_counterexample :
    envR.obeyRobots = true ∧
    envR.robots = RobotsFetch.exn "connection refused" ∧
    can_fetch (rpOf envR) "u" = false ∧
    (crawl envR 2).pages = [⟨"u", none, "BLOQUEADA_POR_ROBOTS",
      "BLOQUEADA_POR_ROBOTS", none, none, 0⟩] ∧
    (crawl envR 2).errors = [] := by
  refine ⟨rfl, rfl, ?_, ?_, ?_⟩ <;> decide

/-- Claim C4 (amended): if the robots read raises, the policy fails closed —
with robots compliance enabled every per-URL permission check returns
disallowed, so each in-scope URL is recorded as a robots-blocked placeholder
(when recording blocked URLs is enabled) without being fetched, and the crawl
continues with the remaining frontier rather than halting. -/
theorem claim_c4_amended (env : Env) (msg : String) (s : CrawlState)
    (url : String) (parent : Option String) (depth : Nat)
    (rest : List (String × Option String × Nat))
    (hob : env.obeyRobots = true) (hr : env.robots = .exn msg)
    (hq : s.q = (url, parent, depth) :: rest)
    (hsc : scope_check env s.visited url depth = none)
    (hrec : env.recordBlocked = true) :
    can_fetch (rpOf env) url = false ∧
    step env s =
      { s with
        q := rest
        visited := url :: s.visited
        pages := s.pages ++
          [⟨url, none, "BLOQUEADA_POR_ROBOTS", "BLOQUEADA_POR_ROBOTS", none,
            parent, depth⟩]
        pages_count := s.pages_count + 1 } ∧
    (step env s).errors = s.errors ∧
    (step env s).edges = s.edges := by
  have hcf : can_fetch (rpOf env) url = false := by
    unfold rpOf
    rw [hob, if_pos rfl, hr]
    rfl
  have hb : (env.obeyRobots && !(can_fetch (rpOf env) url)) = true := by
    rw [hob, hcf]
    rfl
  refine ⟨hcf, step_blocked env s url parent depth rest hq hsc hb hrec, ?_, ?_⟩
  · rw [step_blocked env s url parent depth rest hq hsc hb hrec]
  · rw [step_blocked env s url parent depth rest hq hsc hb hrec]

/-- Witness for the amended claim C4 at a concrete environment whose robots
read raised. -/
theorem claim_c4_witness : can_fetch (rpOf envR) "u" = false :=
  (claim_c4_amended envR "connection refused"
    (CrawlState.mk [("u", none, 0)] [] [] [] [] 0 (HNode.mk 0 []))
    "u" none 0 [] rfl rfl rfl (by decide) rfl).1

/-- Counterexample to claim C9 as stated: on an entry that is both over the
depth limit and cross-origin, the source's filter rejects for depth (the
depth test runs first), while the claimed order (cross-origin first) would
reject for origin. -/
theorem claim_c9_counterexample :
    scope_check envC9 [] "other" 9 = some Reason.depth ∧
    scope_check_spec envC9 [] "other" 9 = some Reason.origin ∧
    Reason.depth ≠ Reason.origin := by
  refine ⟨?_, ?_, ?_⟩ <;> decide

/-- Claim C9 (amended): the scope filter's three rejection tests run in the
order depth first, then cross-origin, then visited-set membership — each
reason is reported exactly when its test is the first to fail — and a
rejected entry leaves the state unchanged except for popping the frontier
(no side effects). -/
theorem claim_c9_amended (env : Env) (s : CrawlState) (url : String)
    (parent : Option String) (depth : Nat)
    (rest : List (String × Option String × Nat))
    (hq : s.q = (url, parent, depth) :: rest) :
    (scope_check env s.visited url depth = some .depth ↔
      depth > env.maxDepth) ∧
    (scope_check env s.visited url depth = some .origin ↔
      depth ≤ env.maxDepth ∧ env.originOf env.baseUrl ≠ env.originOf url) ∧
    (scope_check env s.visited url depth = some .visited ↔
      depth ≤ env.maxDepth ∧ env.originOf env.baseUrl = env.originOf url ∧
        url ∈ s.visited) ∧
    (∀ r, scope_check env s.visited url depth = some r →
      step env s = { s with q := rest }) := by
  refine ⟨scope_check_eq_depth env s.visited url depth,
    scope_check_eq_origin env s.visited url depth,
    scope_check_eq_visited env s.visited url depth, ?_⟩
  intro r hr
  exact step_skip env s url parent depth rest r hq hr

/-- Witness for the amended claim C9 at a concrete over-depth entry. -/
theorem claim_c9_witness :
    scope_check envC9 [] "u" 9 = some Reason.depth ↔ 9 > envC9.maxDepth :=
  (claim_c9_amended envC9
    (CrawlState.mk [("u", none, 9)] [] [] [] [] 0 (HNode.mk 0 []))
    "u" none 9 [] rfl).1

/-- Counterexample to claim C2 as stated: page `b` is fetched successfully,
its HTML contains the child link `a`, and `a` is already in the visited set
at that moment — yet no EdgeRecord from `b` to `a` is written, because the
source only writes an edge inside the not-yet-visited branch. -/
theorem claim_c2_counterexample :
    envA.fetch "b" = FetchOutcome.resp (respTo "b" "a") ∧
    links_of envA (respTo "b" "a") = ["a"] ∧
    (crawl envA 3).pages.map PageRecord.url = ["a", "b"] ∧
    "a" ∈ (crawl envA 3).visited ∧
    (crawl envA 3).edges = [EdgeRecord.mk "a" "b"] ∧
    EdgeRecord.mk "b" "a" ∉ (crawl envA 3).edges := by
  refine ⟨rfl, ?_, ?_, ?_, ?_, ?_⟩ <;> decide

/-- Claim C2 (amended): for a successfully fetched HTML page, an EdgeRecord
is written exactly for those child-link occurrences whose target is not in
the visited set at the moment of the check (the page's own URL having just
been added); each such occurrence is simultaneously enqueued with depth one
greater, and occurrences whose target is already visited produce neither an
edge nor a frontier entry. -/
theorem claim_c2_amended (env : Env) (s : CrawlState) (url : String)
    (parent : Option String) (depth : Nat)
    (rest : List (String × Option String × Nat)) (r : RespModel)
    (hq : s.q = (url, parent, depth) :: rest)
    (hsc : scope_check env s.visited url depth = none)
    (hb : (env.obeyRobots && !(can_fetch (rpOf env) url)) = false)
    (hf : env.fetch url = .resp r) (hh : (r.is_html && r.has_body) = true) :
    (step env s).edges = s.edges ++
      ((links_of env r).filter (fun c => !decide (c ∈ url :: s.visited))).map
        (fun c => EdgeRecord.mk url c) ∧
    (step env s).q = rest ++
      ((links_of env r).filter (fun c => !decide (c ∈ url :: s.visited))).map
        (fun c => (c, some url, depth + 1)) := by
  rw [step_html env s url parent depth rest r hq hsc hb hf hh,
    enqueueChildren_eq]
  exact ⟨rfl, rfl⟩

/-- Witness for the amended claim C2 at a concrete state in which the only
child link of `b` is the already-visited `a`. -/
theorem claim_c2_witness :
    (step envA (CrawlState.mk [("b", some "a", 1)] ["a"] [] [] [] 1
      (HNode.mk 0 []))).edges =
      [] ++ ((links_of envA (respTo "b" "a")).filter
        (fun c => !decide (c ∈ "b" :: ["a"]))).map
          (fun c => EdgeRecord.mk "b" c) :=
  (claim_c2_amended envA
    (CrawlState.mk [("b", some "a", 1)] ["a"] [] [] [] 1 (HNode.mk 0 []))
    "b" (some "a") 1 [] (respTo "b" "a") rfl (by decide) rfl rfl rfl).1

/-- Counterexample to claim C3 as stated: after inserting the single segment
sequence `a, b` into a fresh accumulator, the non-terminal node `a` has count
one, although no insertion terminated exactly at `a`. -/
theorem claim_c3_counterexample :
    countAt (insert_path (HNode.mk 0 []) ["a", "b"]) ["a"] = some 1 ∧
    ([["a", "b"]] : List (List String)).countP
      (fun l => decide (l = ["a"])) = 0 := by
  exact ⟨by decide, by decide⟩

/-- Claim C3 (amended): `insert_path` increments the counter of every node
along the inserted (non-empty-segment) path, so after any sequence of
insertions a node's count equals the number of insertions whose non-empty
segment sequence extends the node's path (and the node exists exactly when
that number is positive). -/
theorem claim_c3_amended (L : List (List String)) (p : List String)
    (hp : p ≠ []) :
    countAt (buildL L) p =
      (if L.countP (fun l => decide (p <+: nseg l)) = 0 then none
       else some (L.countP (fun l => decide (p <+: nseg l)))) :=
  countAt_buildL_nseg L p hp

/-- Witness for the amended claim C3: with insertions `a, b` and `a`, the
node at `a` stores count two. -/
theorem claim_c3_witness :
    countAt (buildL [["a", "b"], ["a"]]) ["a"] =
      (if ([["a", "b"], ["a"]] : List (List String)).countP
          (fun l => decide ((["a"] : List String) <+: nseg l)) = 0 then none
       else some (([["a", "b"], ["a"]] : List (List String)).countP
          (fun l => decide ((["a"] : List String) <+: nseg l)))) :=
  claim_c3_amended [["a", "b"], ["a"]] ["a"] (by decide)

/-- Claim C6: for any collection of sitemap fetch results, the seeder's
output is duplicate-free, sorted in Python's string order, contains a URL
exactly when some successfully fetched sitemap (no exception, status 200,
non-empty body) has a location line extracting to it under the prefix
filter, and every returned URL starts with the seed's path prefix. -/
theorem claim_c6_sitemap (basePfx : String)
    (resps : List (Option (Nat × List String))) :
    (fetch_sitemap_urls basePfx resps).Nodup ∧
    List.Sorted strLe (fetch_sitemap_urls basePfx resps) ∧
    (∀ u, u ∈ fetch_sitemap_urls basePfx resps ↔
      ∃ code lines, some (code, lines) ∈ resps ∧ code = 200 ∧ lines ≠ [] ∧
        u ∈ extractLocs basePfx lines) ∧
    (∀ u ∈ fetch_sitemap_urls basePfx resps, strStarts u basePfx = true) := by
  refine ⟨fetch_sitemap_nodup basePfx resps, fetch_sitemap_sorted basePfx resps,
    fetch_sitemap_mem basePfx resps, ?_⟩
  intro u hu
  obtain ⟨_, _, _, _, _, hu'⟩ := (fetch_sitemap_mem basePfx resps u).mp hu
  exact extractLocs_startsWith basePfx _ u hu'

/-- Witness for claim C6 at a concrete sitemap response list. -/
theorem claim_c6_witness :
    (fetch_sitemap_urls "p" [some (200, ["<loc>p1</loc>"]), none]).Nodup :=
  (claim_c6_sitemap "p" [some (200, ["<loc>p1</loc>"]), none]).1

/-- Claim C7: the rendered hierarchy is independent of insertion order — any
permutation of the insertion list renders to the identical tree — and every
interior node of the rendered tree lists its children in sorted name order,
so renders are deterministic. -/
theorem claim_c7_order_independence (L L' : List (List String)) (name : String)
    (h : List.Perm L L') :
    hierarchy_to_d3 (buildL L) name = hierarchy_to_d3 (buildL L') name ∧
    d3SortedB (hierarchy_to_d3 (buildL L) name) = true := by
  constructor
  · rw [buildL_nseg L, buildL_nseg L']
    exact render_perm_aux (((L.map nseg).map (fun l => l.length + 1)).sum)
      (L.map nseg) (L'.map nseg) le_rfl (norm_map_nseg L) (norm_map_nseg L')
      (h.map nseg) name
  · exact render_sortedB _ _

/-- Witness for claim C7 at a concrete pair of permuted insertion lists. -/
theorem claim_c7_witness :
    hierarchy_to_d3 (buildL [["a"], ["b", "c"]]) "r" =
      hierarchy_to_d3 (buildL [["b", "c"], ["a"]]) "r" ∧
    d3SortedB (hierarchy_to_d3 (buildL [["a"], ["b", "c"]]) "r") = true :=
  claim_c7_order_independence [["a"], ["b", "c"]] [["b", "c"], ["a"]] "r"
    (List.Perm.swap _ _ _)

/-- Counterexample to claim C8 as stated: inserting the same segment sequence
`a` twice yields a rendered tree whose leaf values sum to two, while only one
distinct path was inserted. -/
theorem claim_c8_counterexample :
    leafSumD3 (hierarchy_to_d3 (buildL [["a"], ["a"]]) "r") = 2 ∧
    ([["a"], ["a"]] : List (List String)).dedup.length = 1 := by
  constructor
  · rw [leafSumD3_render]
    show leafSumH (HNode.mk 0 [("a", HNode.mk 2 [])]) = 2
    rw [leafSumH_cons _ _ (by simp)]
    simp [leafSumH_nil]
  · decide

theorem maximalIn_map_nseg (L : List (List String)) (l : List String) :
    maximalIn (L.map nseg) (nseg l) ↔ maximalIn L l := by
  unfold maximalIn
  rw [nseg_idem]
  constructor
  · rintro ⟨h1, h2⟩
    refine ⟨h1, ?_⟩
    intro l'' hl'' hpre
    have h3 := h2 (nseg l'') (List.mem_map_of_mem _ hl'')
    rw [nseg_idem] at h3
    exact h3 hpre
  · rintro ⟨h1, h2⟩
    refine ⟨h1, ?_⟩
    intro l' hl' hpre
    obtain ⟨l'', hl'', rfl⟩ := List.mem_map.mp hl'
    rw [nseg_idem] at hpre ⊢
    exact h2 l'' hl'' hpre

/-- Claim C8 (amended): the sum of the `value` fields over the leaves of the
rendered tree equals the number of insertions — counted with multiplicity,
not the number of distinct paths — whose non-empty segment sequence is
maximal, i.e. not a proper prefix of any other inserted sequence (internal
nodes carry no rendered count, so insertions extended by deeper ones do not
contribute). -/
theorem claim_c8_leaf_sum (L : List (List String)) (name : String) :
    leafSumD3 (hierarchy_to_d3 (buildL L) name) = maximalCount L := by
  rw [leafSumD3_render, buildL_nseg]
  rw [leafSumH_buildL (((L.map nseg).map (fun l => l.length + 1)).sum)
    (L.map nseg) le_rfl (norm_map_nseg L)]
  unfold maximalCount
  rw [List.countP_map]
  apply List.countP_congr
  intro l _
  show (decide (maximalIn (L.map nseg) (nseg l)) = true) ↔
    (decide (maximalIn L l) = true)
  rw [decide_eq_true_eq, decide_eq_true_eq]
  exact maximalIn_map_nseg L l
